import Mathlib

/-!
Verification development for the image-steganography package
(`src/steganography/`): a shallow embedding of the DCT (JPEG) and LSB
(PNG) embed/extract algorithms, the metadata protocol, the capacity
computation and the chi-square steganalysis front end, together with
proofs about the testable properties of the specification.

Conventions of the embedding:

* Python strings are modelled as `List Char`; the EXIF dictionary of an
  image is modelled by its single `Exif.Photo.UserComment` entry, of type
  `Option (List Char)` (`none` = key absent), which is the only EXIF
  entry the package reads or writes.
* Python `bytes` are modelled as `List Nat` (each element < 256);
  `bitarray` is modelled as `List Bool` with most-significant-bit-first
  byte serialisation, matching `bitarray.frombytes`/`tobytes`.
* Python `int` is modelled as `Int` (or `Nat` where the source value is
  known non-negative); `&= -2`, `|= 1` and `% 2` on coefficients are
  translated to arithmetic on `Int` using floor/Euclidean mod, which
  agrees with Python's two's-complement semantics on these operands.
* Exceptions are modelled with `Except`: the `TypeError` of
  `extract_parameters_from_metadata` becomes `MetaError.malformed`, the
  `ValueError` of `embed_data` becomes `EmbedError.capacityExceeded`,
  and the `IndexError` raised by `bitarray` indexing out of range in
  `JpegImage.__embed_data_into_channel` becomes `EmbedError.indexError`.
* In-place mutation of the caller's object (`self.exif[...] = ...`) is
  modelled by state passing: `embed_data` returns, next to its result,
  the post-call state of the source image object.
-/

/-! ### Bits and bytes (`bitarray`) -/

/-- Numeric value of one bit. -/
def bitVal (b : Bool) : Nat := if b then 1 else 0

/-- Value of a bit string read most-significant-bit first. -/
def bitsVal (l : List Bool) : Nat := l.foldl (fun a b => 2 * a + bitVal b) 0

/-- The low `n` bits of `v`, most-significant first (the last `n`
characters of the binary representation of `v`). -/
def natToBits (n v : Nat) : List Bool :=
  (List.range n).map fun i => decide (v / 2 ^ (n - 1 - i) % 2 = 1)

/-- `bitarray.frombytes` on one byte: its 8 bits, MSB first. -/
def byteToBits (b : Nat) : List Bool := natToBits 8 b

/-- `bitarray.frombytes`: MSB-first serialisation of a byte string. -/
def bytesToBits (l : List Nat) : List Bool := l.flatMap byteToBits

/-- `bitarray.tobytes`: pack bits into bytes, zero-padding the final
partial byte on the right. -/
def bitsToBytes (l : List Bool) : List Nat :=
  match l with
  | [] => []
  | b :: rest =>
    bitsVal ((b :: rest).take 8 ++ List.replicate (8 - (b :: rest).length) false)
      :: bitsToBytes (rest.drop 7)
termination_by l.length
decreasing_by simp; omega

/-! ### Decimal text and the metadata record (`common_operations.py`) -/

/-- The decimal digit character for `d` (digits ≥ 9 clamp to `'9'`;
only `d < 10` is ever used). -/
def digitChar (d : Nat) : Char :=
  match d with
  | 0 => '0' | 1 => '1' | 2 => '2' | 3 => '3' | 4 => '4'
  | 5 => '5' | 6 => '6' | 7 => '7' | 8 => '8' | _ => '9'

/-- Decimal rendering of a natural number (Python `f"{n}"`). -/
def natDigits (n : Nat) : List Char :=
  if n < 10 then [digitChar n]
  else natDigits (n / 10) ++ [digitChar (n % 10)]
termination_by n
decreasing_by exact Nat.div_lt_self (by omega) (by omega)

/-- Value of a list of decimal digit characters. -/
def digitsToNat (l : List Char) : Nat :=
  l.foldl (fun a c => 10 * a + (c.toNat - 48)) 0

/-- Parse a non-empty all-digit string. -/
def parseDigits (l : List Char) : Option Nat :=
  if l ≠ [] ∧ l.all Char.isDigit then some (digitsToNat l) else none

/-- Python `int(s)` on the strings reachable here: an optional sign
followed by at least one decimal digit; anything else raises
`ValueError` (modelled as `none`). -/
def parseInt (s : List Char) : Option Int :=
  match s with
  | [] => none
  | c :: rest =>
    if c = '-' then (parseDigits rest).map fun m => -(m : Int)
    else if c = '+' then (parseDigits rest).map fun m => (m : Int)
    else (parseDigits (c :: rest)).map fun m => (m : Int)

/-- Python `s.split("-")`. -/
def splitDash : List Char → List (List Char)
  | [] => [[]]
  | c :: rest =>
    if c = '-' then [] :: splitDash rest
    else
      match splitDash rest with
      | [] => [[c]]
      | f :: r => (c :: f) :: r

/-- The on-carrier metadata record `f"{payload_bit_length}-{parameter}"`. -/
def mkMetadata (bits param : Nat) : List Char :=
  natDigits bits ++ '-' :: natDigits param

/-- The single `TypeError` raised by `extract_parameters_from_metadata`. -/
inductive MetaError
  | malformed
deriving DecidableEq, Repr

/-- `common_operations.extract_parameters_from_metadata`.  `lo`/`hi`
are the bounds of the Python `range_of_custom_parameter` argument,
`range(lo, hi)`.  Returns `(data_size, custom_parameter)`. -/
def extract_parameters_from_metadata (metadata : Option (List Char)) (lo hi : Int) :
    Except MetaError (Nat × Nat) :=
  match metadata with
  | none => .error .malformed
  | some s =>
    if s = [] then .error .malformed
    else
      match splitDash s with
      | [f1, f2] =>
        match parseInt f1 with
        | none => .error .malformed
        | some dataSize =>
          if dataSize < 1 then .error .malformed
          else
            match parseInt f2 with
            | none => .error .malformed
            | some param =>
              if lo ≤ param ∧ param < hi then .ok (dataSize.toNat, param.toNat)
              else .error .malformed
      | _ => .error .malformed

/-! ### DCT steganography (`dct_steganography.py`)

A quantized 8×8 DCT block is a function `Fin 8 → Fin 8 → Int`.  The two
outer loops of the source (`for i in range(shape[0]): for j in
range(shape[1])`) enumerate the blocks of a channel in row-major order;
a channel is modelled as that row-major sequence of blocks. -/

/-- One 8×8 block of quantized DCT coefficients. -/
def Block : Type := Fin 8 → Fin 8 → Int

/-- A coefficient channel: its 8×8 blocks in row-major scan order. -/
def Chan : Type := List Block

/-- All intra-block positions `(k, l)` in source scan order
(`for k in range(8): for l in range(8)`). -/
def pairList : List (Fin 8 × Fin 8) :=
  (List.finRange 8).flatMap fun k => (List.finRange 8).map fun l => (k, l)

/-- The intra-block positions scanned for a given `perceptibility`:
`for k in range(8): for l in range(max(0, 8 - k - perceptibility), 8)`,
i.e. the pairs with `8 ≤ k + l + perceptibility`. -/
def posList (perceptibility : Nat) : List (Fin 8 × Fin 8) :=
  pairList.filter fun kl => 8 ≤ kl.1.val + kl.2.val + perceptibility

/-- The value test of the selection predicate:
`image_channel[i][j][k][l] not in [0, 1]`. -/
def elig (v : Int) : Bool := !(v == 0 || v == 1)

/-- The low-bit write of the embedder: `v &= -2` for a 0 bit and
`v |= 1` for a 1 bit (on Python ints, `v & -2 = v - v % 2` and
`v | 1 = v - v % 2 + 1`, with floor/Euclidean `%`). -/
def writeBit (v : Int) (b : Bool) : Int :=
  if b then v - v % 2 + 1 else v - v % 2

/-- Pointwise update of one coefficient of a block. -/
def updBlock (bl : Block) (k l : Fin 8) (v : Int) : Block :=
  fun k' l' => if k' = k ∧ l' = l then v else bl k' l'

/-- The values at the eligible positions of one block, in scan order. -/
def blockEligVals (p : Nat) (bl : Block) : List Int :=
  (posList p).filterMap fun kl =>
    if elig (bl kl.1 kl.2) then some (bl kl.1 kl.2) else none

/-- The values at the eligible positions of a channel, in scan order. -/
def chanEligVals (p : Nat) (c : Chan) : List Int :=
  c.flatMap (blockEligVals p)

/-- `JpegImage.__compute_number_of_available_coefficients`: the count of
eligible positions of a channel (the counting loop visits exactly the
positions enumerated by `chanEligVals`). -/
def numAvail (p : Nat) (c : Chan) : Nat := (chanEligVals p c).length

/-- The eligibility pattern of a channel: one Boolean per scanned
position, in scan order (identifies the eligible-position sequence). -/
def chanEligMask (p : Nat) (c : Chan) : List Bool :=
  c.flatMap fun bl => (posList p).map fun kl => elig (bl kl.1 kl.2)

/-- Failures of `embed_data`: the explicit `ValueError` for oversized
payloads, and the `IndexError` from `data[index]` when the bit array is
exhausted (reachable only for an empty payload). -/
inductive EmbedError
  | capacityExceeded
  | indexError
deriving DecidableEq, Repr

/-- The inner loops of `JpegImage.__embed_data_into_channel` over one
block: at each eligible position read `data[index]` (IndexError when
`index ≥ len(data)`), clear-or-set the low bit, and return early —
flag `true` — once `index == len(data)`. -/
def embedPos (bits : List Bool) : List (Fin 8 × Fin 8) → Block → Nat →
    Option (Block × Nat × Bool)
  | [], bl, idx => some (bl, idx, false)
  | kl :: rest, bl, idx =>
    let v := bl kl.1 kl.2
    if elig v then
      match bits[idx]? with
      | none => none
      | some b =>
        let bl' := updBlock bl kl.1 kl.2 (writeBit v b)
        if idx + 1 = bits.length then some (bl', idx + 1, true)
        else embedPos bits rest bl' (idx + 1)
    else embedPos bits rest bl idx

/-- `JpegImage.__embed_data_into_channel`: scan the blocks in order,
propagating the early return. -/
def embedChan (p : Nat) (bits : List Bool) : Chan → Nat →
    Option (Chan × Nat × Bool)
  | [], idx => some ([], idx, false)
  | bl :: rest, idx =>
    match embedPos bits (posList p) bl idx with
    | none => none
    | some (bl', idx', true) => some (bl' :: rest, idx', true)
    | some (bl', idx', false) =>
      match embedChan p bits rest idx' with
      | none => none
      | some (rest', idx'', fin) => some (bl' :: rest', idx'', fin)

/-- The stego JPEG wrapper (`StegJpegImage`). -/
structure StegJpegImage where
  Y : Chan
  Cr : Chan
  Cb : Chan
  exif : Option (List Char)

/-- The cover JPEG wrapper (`JpegImage`). -/
structure JpegImage where
  Y : Chan
  Cr : Chan
  Cb : Chan
  exif : Option (List Char)
  perceptibility : Nat

/-- `JpegImage.__compute_storage_capacity`: total eligible positions of
the three channels, in bits, floored to whole bytes. -/
def JpegImage.storage_capacity (img : JpegImage) : Nat :=
  (numAvail img.perceptibility img.Y + numAvail img.perceptibility img.Cr +
    numAvail img.perceptibility img.Cb) / 8

/-- `JpegImage.embed_data`.  Returns the embed result together with the
post-call state of the source `JpegImage` object (whose `exif` dict is
mutated in place by `self.exif["Exif.Photo.UserComment"] = metadata`
before the planes are copied). -/
def JpegImage.embed_data (img : JpegImage) (data : List Nat) :
    Except EmbedError StegJpegImage × JpegImage :=
  if data.length > img.storage_capacity then (.error .capacityExceeded, img)
  else
    let md := mkMetadata (8 * data.length) img.perceptibility
    let post : JpegImage := { img with exif := some md }
    let bits := bytesToBits data
    match embedChan img.perceptibility bits img.Y 0 with
    | none => (.error .indexError, post)
    | some (y', idx, _) =>
      if idx = bits.length then (.ok ⟨y', img.Cr, img.Cb, some md⟩, post)
      else
        match embedChan img.perceptibility bits img.Cr idx with
        | none => (.error .indexError, post)
        | some (cr', idx', _) =>
          if idx' = bits.length then (.ok ⟨y', cr', img.Cb, some md⟩, post)
          else
            match embedChan img.perceptibility bits img.Cb idx' with
            | none => (.error .indexError, post)
            | some (cb', _, _) => (.ok ⟨y', cr', cb', some md⟩, post)

/-- The inner loops of `StegJpegImage.__extract_data_from_channel` over
one block: append the low bit of each eligible coefficient and return
as soon as `data_size` bits have been collected. -/
def extractPos : List (Fin 8 × Fin 8) → Block → Nat → List Bool →
    Nat × List Bool
  | [], _, ds, acc => (ds, acc)
  | kl :: rest, bl, ds, acc =>
    let v := bl kl.1 kl.2
    if elig v then
      let acc' := acc ++ [v % 2 == 1]
      if ds - 1 = 0 then (0, acc')
      else extractPos rest bl (ds - 1) acc'
    else extractPos rest bl ds acc

/-- `StegJpegImage.__extract_data_from_channel`: scan the blocks in
order, stopping once the requested bit count is reached. -/
def extractChan (p : Nat) : Chan → Nat → List Bool → Nat × List Bool
  | [], ds, acc => (ds, acc)
  | bl :: rest, ds, acc =>
    let r := extractPos (posList p) bl ds acc
    if r.1 = 0 then r else extractChan p rest r.1 r.2

/-- `StegJpegImage.extract`: parse the metadata (hard precondition),
then replay the embedding scan over Y, Cr, Cb, tolerating exhaustion.
Returns the extracted bytes and the number of missing bits (the final
`data_size`, reported by the source in a warning when non-zero). -/
def StegJpegImage.extract (img : StegJpegImage) :
    Except MetaError (List Nat × Nat) :=
  match extract_parameters_from_metadata img.exif 1 9 with
  | .error e => .error e
  | .ok (ds, p) =>
    let r1 := extractChan p img.Y ds []
    if r1.1 = 0 then .ok (bitsToBytes r1.2, 0)
    else
      let r2 := extractChan p img.Cr r1.1 r1.2
      if r2.1 = 0 then .ok (bitsToBytes r2.2, 0)
      else
        let r3 := extractChan p img.Cb r2.1 r2.2
        .ok (bitsToBytes r3.2, r3.1)

/-- The parameter validation of `JpegImage.from_file`: a perceptibility
outside `range(1, 9)` is replaced by the default 3 (with a logged
warning; no exception). -/
def JpegImage.fromParams (Y Cr Cb : Chan) (exif : Option (List Char))
    (perceptibility : Int) : JpegImage :=
  let p : Nat :=
    if 1 ≤ perceptibility ∧ perceptibility ≤ 8 then perceptibility.toNat else 3
  ⟨Y, Cr, Cb, exif, p⟩

/-! ### LSB steganography (`lsb_steganography.py`)

A pixel holds its three colour-channel samples (`for k in range(3)`);
the two outer loops enumerate pixels in row-major order, so the image
array is modelled as that row-major sequence of pixels.  `image.size`
(total number of samples of an H×W×3 uint8 array) is then
`3 * pixels.length`. -/

/-- One pixel: its three uint8 channel samples. -/
def Px : Type := Fin 3 → Nat

/-- Pointwise update of one channel of a pixel. -/
def updPx (px : Px) (k : Fin 3) (v : Nat) : Px :=
  fun k' => if k' = k then v else px k'

/-- The per-sample write of the LSB embedder on a uint8 value `v`:
`f"{v:08b}"[:-n]` keeps the high `8 - n` bits (`v / 2 ^ n`), the slice
`s` of payload bits is appended, and `ljust(8, '0')` zero-pads on the
right when the slice is shorter than `n`. -/
def writePixel (n : Nat) (v : Nat) (s : List Bool) : Nat :=
  v / 2 ^ n * 2 ^ n + bitsVal s * 2 ^ (n - s.length)

/-- The channel loop (`for k in range(3)`) of `PngImage.embed_data` on
one pixel: `cur` is the running bit cursor (`left_bound`); after each
write the loop breaks — flag `true` — once `right_bound ≥ len(bit_data)`. -/
def embedPxChans (n : Nat) (bits : List Bool) : List (Fin 3) → Px → Nat →
    Px × Nat × Bool
  | [], px, cur => (px, cur, false)
  | k :: rest, px, cur =>
    let px' := updPx px k (writePixel n (px k) ((bits.drop cur).take n))
    if bits.length ≤ cur + n then (px', cur + n, true)
    else embedPxChans n bits rest px' (cur + n)

/-- The pixel loops of `PngImage.embed_data`, propagating the break. -/
def embedPngPixels (n : Nat) (bits : List Bool) : List Px → Nat →
    List Px × Nat × Bool
  | [], cur => ([], cur, false)
  | px :: rest, cur =>
    match embedPxChans n bits (List.finRange 3) px cur with
    | (px', cur', true) => (px' :: rest, cur', true)
    | (px', cur', false) =>
      let r := embedPngPixels n bits rest cur'
      (px' :: r.1, r.2.1, r.2.2)

/-- The stego PNG wrapper (`StegPngImage`). -/
structure StegPngImage where
  data : List Px
  exif : Option (List Char)

/-- The cover PNG wrapper (`PngImage`). -/
structure PngImage where
  data : List Px
  exif : Option (List Char)
  number_of_least_significant_bits : Nat

/-- `PngImage.__compute_storage_capacity`:
`image.size * number_of_least_significant_bits // 8`. -/
def PngImage.storage_capacity (img : PngImage) : Nat :=
  3 * img.data.length * img.number_of_least_significant_bits / 8

/-- `PngImage.embed_data`.  As for JPEG, the post-call state of the
source object (with its in-place-mutated `exif`) is returned next to
the result; the pixel array itself is copied before mutation. -/
def PngImage.embed_data (img : PngImage) (data : List Nat) :
    Except EmbedError StegPngImage × PngImage :=
  if data.length > img.storage_capacity then (.error .capacityExceeded, img)
  else
    let md := mkMetadata (8 * data.length) img.number_of_least_significant_bits
    let post : PngImage := { img with exif := some md }
    let bits := bytesToBits data
    let r := embedPngPixels img.number_of_least_significant_bits bits img.data 0
    (.ok ⟨r.1, some md⟩, post)

/-- The channel loop of `StegPngImage.extract` on one pixel: append the
low `n` bits (`f"{v:08b}"[-n:]`) of each sample, decrement `data_size`
by `n`, and break — first component ≤ 0 — once it is exhausted.
`data_size` is an `Int`, as in the source it can go negative. -/
def extractPxChans (n : Nat) : List (Fin 3) → Px → Int → List Bool →
    Int × List Bool
  | [], _, ds, acc => (ds, acc)
  | k :: rest, px, ds, acc =>
    let acc' := acc ++ natToBits n (px k)
    if ds - (n : Int) ≤ 0 then (ds - (n : Int), acc')
    else extractPxChans n rest px (ds - (n : Int)) acc'

/-- The pixel loops of `StegPngImage.extract`, propagating the break. -/
def extractPngPixels (n : Nat) : List Px → Int → List Bool →
    Int × List Bool
  | [], ds, acc => (ds, acc)
  | px :: rest, ds, acc =>
    let r := extractPxChans n (List.finRange 3) px ds acc
    if r.1 ≤ 0 then r else extractPngPixels n rest r.1 r.2

/-- `StegPngImage.extract`: parse the metadata, harvest the low bits,
discard trailing bits that do not complete a byte, and report the
missing-bit count (the warning is emitted only when `data_size > 0`). -/
def StegPngImage.extract (img : StegPngImage) :
    Except MetaError (List Nat × Nat) :=
  match extract_parameters_from_metadata img.exif 1 5 with
  | .error e => .error e
  | .ok (ds, n) =>
    let r := extractPngPixels n img.data (ds : Int) []
    let bits := r.2.take (r.2.length - r.2.length % 8)
    .ok (bitsToBytes bits, if 0 < r.1 then r.1.toNat else 0)

/-- The parameter validation of `PngImage.from_file`: a bit count
outside `range(1, 5)` is replaced by the default 1 (with a logged
warning; no exception). -/
def PngImage.fromParams (data : List Px) (exif : Option (List Char))
    (n : Int) : PngImage :=
  let m : Nat := if 1 ≤ n ∧ n ≤ 4 then n.toNat else 1
  ⟨data, exif, m⟩

/-! ### Steganalysis (`steganalysis.py`)

`dct_detection` flattens each coefficient channel, removes the values 0
and 1, and runs `chi2_contingency` on the observed/expected low-bit
frequency tables of each channel.  Only the table construction is
modelled; the chi-square statistic itself is computed by `scipy`. -/

/-- Every coefficient of a channel, in flattening order. -/
def chanAllVals (c : Chan) : List Int :=
  c.flatMap fun bl =>
    (List.finRange 8).flatMap fun k => (List.finRange 8).map fun l => bl k l

/-- `y_coefficients[(y_coefficients != 0) & (y_coefficients != 1)]`:
the eligible sample set of the detector. -/
def detectorSamples (vals : List Int) : List Int :=
  vals.filter fun v => !(v == 0) && !(v == 1)

/-- `calculate_dct_distribution`: the observed low-bit histogram
`[count of 0 bits, count of 1 bits]`. -/
def calculate_dct_distribution (coefficients : List Int) : List Nat :=
  [(coefficients.filter fun v => v % 2 == 0).length,
   (coefficients.filter fun v => v % 2 == 1).length]

/-- `calculate_expected_frequency`: an even split of the sample count,
the extra unit (odd totals) going to the second bucket. -/
def calculate_expected_frequency (coefficients : List Int) : List Nat :=
  [coefficients.length / 2, coefficients.length / 2 + coefficients.length % 2]

/-- The `[observed, expected]` tables `dct_detection` hands to
`chi2_contingency`, one per channel, in Y, Cr, Cb order. -/
def dctChi2Tables (Y Cr Cb : Chan) : List (List Nat × List Nat) :=
  [(calculate_dct_distribution (detectorSamples (chanAllVals Y)),
    calculate_expected_frequency (detectorSamples (chanAllVals Y))),
   (calculate_dct_distribution (detectorSamples (chanAllVals Cr)),
    calculate_expected_frequency (detectorSamples (chanAllVals Cr))),
   (calculate_dct_distribution (detectorSamples (chanAllVals Cb)),
    calculate_expected_frequency (detectorSamples (chanAllVals Cb)))]

/-! ### Specification-side definitions used to state the claims -/

/-- Reference description of the embedder's effect on the eligible
value sequence: starting at cursor `idx`, each value receives the next
payload bit in its low bit until the payload is exhausted; later values
are untouched. -/
def writeVals (bits : List Bool) : Nat → List Int → List Int
  | _, [] => []
  | idx, v :: vs =>
    match bits[idx]? with
    | none => v :: vs
    | some b => writeBit v b :: writeVals bits (idx + 1) vs

/-- Total number of eligible bit positions of a stego JPEG under a
given perceptibility (the extractor's available bits). -/
def dctAvailBits (p : Nat) (img : StegJpegImage) : Nat :=
  numAvail p img.Y + numAvail p img.Cr + numAvail p img.Cb

/-- The malformedness condition of the claim on metadata parsing: the
record is absent, has a field count other than 2, a field that is not
an integer, or a field outside its valid domain
(`payload_bit_length < 1`, parameter outside `[lo, hi)`). -/
def claimMalformed (md : Option (List Char)) (lo hi : Int) : Prop :=
  md = none ∨ md = some [] ∨
    ∃ s, md = some s ∧
      ((splitDash s).length ≠ 2 ∨
        ∃ f1 f2, splitDash s = [f1, f2] ∧
          (parseInt f1 = none ∨ parseInt f2 = none ∨
            (∃ d, parseInt f1 = some d ∧ d < 1) ∨
            (∃ q, parseInt f2 = some q ∧ (q < lo ∨ hi ≤ q))))

/-- The eligible values of a block restricted to an arbitrary position
list (generalisation of `blockEligVals` used in the inductions;
`blockEligVals p bl = valsAt (posList p) bl` by definition). -/
def valsAt (ps : List (Fin 8 × Fin 8)) (bl : Block) : List Int :=
  ps.filterMap fun kl => if elig (bl kl.1 kl.2) then some (bl kl.1 kl.2) else none

/-- The eligibility pattern of a block on a position list
(`chanEligMask p c = c.flatMap (maskAt (posList p))` by definition). -/
def maskAt (ps : List (Fin 8 × Fin 8)) (bl : Block) : List Bool :=
  ps.map fun kl => elig (bl kl.1 kl.2)

/-! ### Concrete carriers used in the closed instances -/

/-- A block all of whose coefficients are 2: every position eligible. -/
def wBlock : Block := fun _ _ => 2

/-- A small JPEG carrier: one all-2 block per channel, perceptibility 3
(49 eligible positions per channel, storage capacity 18 bytes). -/
def wJpeg : JpegImage := ⟨[wBlock], [wBlock], [wBlock], none, 3⟩

/-- A block with a single eligible coefficient (value 5 at position
(7,7)); every other coefficient is 0. -/
def oneBlock : Block := fun k l => if k = 7 ∧ l = 7 then 5 else 0

/-- A JPEG carrier with exactly one eligible coefficient in Y and empty
chroma channels: storage capacity 0 bytes, non-trivial Y scan. -/
def tinyJpeg : JpegImage := ⟨[oneBlock], [], [], none, 1⟩

/-- A stego JPEG whose metadata promises 8 payload bits while its
channels hold a single eligible coefficient (1 available bit). -/
def truncJpegStego : StegJpegImage := ⟨[oneBlock], [], [], some (mkMetadata 8 1)⟩

/-- An all-255 pixel. -/
def wPx : Px := fun _ => 255

/-- A small PNG carrier: three pixels, 1 least significant bit
(9 sample bits, storage capacity 1 byte). -/
def wPng : PngImage := ⟨[wPx, wPx, wPx], none, 1⟩

/-- A one-pixel PNG carrier at 1 least significant bit: storage
capacity 0 bytes. -/
def tinyPng : PngImage := ⟨[wPx], none, 1⟩

/-- A stego PNG whose metadata promises 100 payload bits while its
single pixel supplies only 6 bits at 2 bits per sample. -/
def truncPngStego : StegPngImage := ⟨[wPx], some (mkMetadata 100 2)⟩

/-- An all-zero coefficient block: no detector-eligible samples. -/
def zBlock : Block := fun _ _ => 0

/-! ### Lemmas: bits and bytes -/

theorem length_natToBits (n v : Nat) : (natToBits n v).length = n := by
  simp [natToBits]

theorem natToBits_succ (n v : Nat) :
    natToBits (n + 1) v = decide (v / 2 ^ n % 2 = 1) :: natToBits n v := by
  unfold natToBits
  rw [List.range_succ_eq_map, List.map_cons, List.map_map]
  simp only [Nat.add_sub_cancel, Nat.sub_zero]
  refine congrArg₂ _ rfl (List.map_congr_left fun i _ => ?_)
  have h : n - (i + 1) = n - 1 - i := by omega
  simp [Function.comp, h]

theorem bitsVal_foldl (l : List Bool) : ∀ a : Nat,
    l.foldl (fun a b => 2 * a + bitVal b) a = a * 2 ^ l.length + bitsVal l := by
  induction l with
  | nil => intro a; simp [bitsVal]
  | cons b t ih =>
    intro a
    have hb : bitsVal (b :: t) = bitVal b * 2 ^ t.length + bitsVal t := by
      simp only [bitsVal, List.foldl_cons]
      rw [ih]
      simp only [Nat.mul_zero, Nat.zero_add]
      rfl
    simp only [List.foldl_cons, List.length_cons, hb]
    rw [ih]
    show (2 * a + bitVal b) * 2 ^ t.length + bitsVal t =
      a * 2 ^ (t.length + 1) + (bitVal b * 2 ^ t.length + bitsVal t)
    ring

theorem bitsVal_cons (b : Bool) (t : List Bool) :
    bitsVal (b :: t) = bitVal b * 2 ^ t.length + bitsVal t := by
  simp only [bitsVal, List.foldl_cons]
  rw [bitsVal_foldl]
  simp only [Nat.mul_zero, Nat.zero_add]
  rfl

theorem bitsVal_append (a b : List Bool) :
    bitsVal (a ++ b) = bitsVal a * 2 ^ b.length + bitsVal b := by
  simp only [bitsVal, List.foldl_append]
  rw [bitsVal_foldl]
  rfl

theorem bitsVal_lt (l : List Bool) : bitsVal l < 2 ^ l.length := by
  induction l with
  | nil => simp [bitsVal]
  | cons b t ih =>
    rw [bitsVal_cons]
    have : bitVal b ≤ 1 := by cases b <;> simp [bitVal]
    have h2 : (2:Nat) ^ (b :: t).length = 2 ^ t.length + 2 ^ t.length := by
      simp [List.length_cons, pow_succ]; ring
    rw [h2]
    have : bitVal b * 2 ^ t.length ≤ 2 ^ t.length := by
      calc bitVal b * 2 ^ t.length ≤ 1 * 2 ^ t.length := by
            exact Nat.mul_le_mul_right _ this
        _ = 2 ^ t.length := by ring
    omega

theorem mod_two_pow_succ (v n : Nat) :
    v % 2 ^ (n + 1) = v / 2 ^ n % 2 * 2 ^ n + v % 2 ^ n := by
  have h : (2:Nat) ^ (n + 1) = 2 ^ n * 2 := by ring
  rw [h, Nat.mod_mul]
  ring

theorem bitsVal_natToBits (n v : Nat) : bitsVal (natToBits n v) = v % 2 ^ n := by
  induction n with
  | zero => simp [natToBits, bitsVal, Nat.mod_one]
  | succ n ih =>
    rw [natToBits_succ, bitsVal_cons, length_natToBits, ih, mod_two_pow_succ]
    rcases Nat.mod_two_eq_zero_or_one (v / 2 ^ n) with h | h <;> simp [h, bitVal]

theorem natToBits_mod (n v : Nat) : natToBits n (v % 2 ^ n) = natToBits n v := by
  unfold natToBits
  refine List.map_congr_left fun i hi => ?_
  have hi' : i < n := List.mem_range.mp hi
  have he : n - 1 - i < n := by omega
  set e := n - 1 - i with hedef
  have hsplit : (2:Nat) ^ n = 2 ^ e * 2 ^ (n - e) := by
    rw [← pow_add]; congr 1; omega
  have h1 : v % 2 ^ n / 2 ^ e = v / 2 ^ e % 2 ^ (n - e) := by
    rw [hsplit, Nat.mod_mul_right_div_self]
  have h2 : v / 2 ^ e % 2 ^ (n - e) % 2 = v / 2 ^ e % 2 := by
    apply Nat.mod_mod_of_dvd
    exact dvd_pow_self 2 (by omega)
  rw [h1, h2]

theorem natToBits_bitsVal (l : List Bool) : natToBits l.length (bitsVal l) = l := by
  induction l with
  | nil => simp [natToBits]
  | cons b t ih =>
    rw [List.length_cons, natToBits_succ, bitsVal_cons]
    have hdiv : (bitVal b * 2 ^ t.length + bitsVal t) / 2 ^ t.length = bitVal b := by
      rw [mul_comm, Nat.mul_add_div (Nat.pos_pow_of_pos _ (by omega)),
        Nat.div_eq_of_lt (bitsVal_lt t)]
      omega
    have hmod : (bitVal b * 2 ^ t.length + bitsVal t) % 2 ^ t.length = bitsVal t := by
      rw [mul_comm, Nat.mul_add_mod, Nat.mod_eq_of_lt (bitsVal_lt t)]
    have h4 : decide ((bitVal b * 2 ^ t.length + bitsVal t) / 2 ^ t.length % 2 = 1)
        = b := by
      rw [hdiv]; cases b <;> simp [bitVal]
    have h5 : natToBits t.length (bitVal b * 2 ^ t.length + bitsVal t) = t := by
      rw [← natToBits_mod, hmod, ih]
    rw [h4, h5]

theorem length_byteToBits (b : Nat) : (byteToBits b).length = 8 :=
  length_natToBits 8 b

theorem length_bytesToBits (l : List Nat) :
    (bytesToBits l).length = 8 * l.length := by
  induction l with
  | nil => simp [bytesToBits]
  | cons b t ih =>
    simp only [bytesToBits, List.flatMap_cons] at *
    simp [length_byteToBits, ih]
    ring

theorem bitsToBytes_append8 (l rest : List Bool) (h : l.length = 8) :
    bitsToBytes (l ++ rest) = bitsVal l :: bitsToBytes rest := by
  match l, h with
  | b :: t, h =>
    have ht : t.length = 7 := by simpa using h
    rw [List.cons_append, bitsToBytes]
    have h1 : (b :: (t ++ rest)).take 8 = b :: t := by
      rw [List.take_succ_cons, List.take_append_eq_append_take, ht,
        List.take_of_length_le (by omega), Nat.sub_self, List.take_zero,
        List.append_nil]
    have h2 : (t ++ rest).drop 7 = rest := by
      rw [← ht, List.drop_left]
    have h3 : 8 - (b :: (t ++ rest)).length = 0 := by
      simp [List.length_append, ht]
    rw [h1, h2, h3, List.replicate_zero, List.append_nil]

theorem bitsToBytes_bytesToBits (data : List Nat) (h : ∀ b ∈ data, b < 256) :
    bitsToBytes (bytesToBits data) = data := by
  induction data with
  | nil => simp [bytesToBits, bitsToBytes]
  | cons b t ih =>
    have hb : b < 256 := h b (by simp)
    simp only [bytesToBits, List.flatMap_cons]
    rw [bitsToBytes_append8 _ _ (length_byteToBits b)]
    have : bitsVal (byteToBits b) = b := by
      rw [byteToBits, bitsVal_natToBits, Nat.mod_eq_of_lt (by omega)]
    rw [this]
    exact congrArg _ (ih fun x hx => h x (by simp [hx]))

theorem length_bitsToBytes (l : List Bool) :
    (bitsToBytes l).length = (l.length + 7) / 8 := by
  match l with
  | [] => simp [bitsToBytes]
  | b :: rest =>
    have ih := length_bitsToBytes (rest.drop 7)
    rw [bitsToBytes]
    simp only [List.length_cons, List.length_drop] at *
    rw [ih]
    omega
termination_by l.length
decreasing_by simp; omega

/-! ### Lemmas: decimal text and metadata parsing -/

theorem digitChar_isDigit (d : Nat) : (digitChar d).isDigit = true := by
  rcases d with _ | _ | _ | _ | _ | _ | _ | _ | _ | d <;> rfl

theorem digitChar_toNat (d : Nat) (h : d < 10) : (digitChar d).toNat = 48 + d := by
  interval_cases d <;> rfl

theorem natDigits_ne_nil (n : Nat) : natDigits n ≠ [] := by
  rw [natDigits]
  split <;> simp

theorem natDigits_all_digits (n : Nat) : ∀ c ∈ natDigits n, c.isDigit = true := by
  rw [natDigits]
  split
  · intro c hc
    simp only [List.mem_singleton] at hc
    subst hc
    exact digitChar_isDigit n
  · intro c hc
    rw [List.mem_append] at hc
    rcases hc with hc | hc
    · exact natDigits_all_digits (n / 10) c hc
    · simp only [List.mem_singleton] at hc
      subst hc
      exact digitChar_isDigit _
termination_by n
decreasing_by omega

theorem natDigits_no_dash (n : Nat) : '-' ∉ natDigits n := by
  intro h
  exact absurd (natDigits_all_digits n '-' h) (by decide)

theorem digitsToNat_append_digit (l : List Char) (c : Char) :
    digitsToNat (l ++ [c]) = 10 * digitsToNat l + (c.toNat - 48) := by
  simp [digitsToNat, List.foldl_append]

theorem digitsToNat_natDigits (n : Nat) : digitsToNat (natDigits n) = n := by
  rw [natDigits]
  split
  · next h =>
    simp [digitsToNat, digitChar_toNat n h]
  · next h =>
    rw [digitsToNat_append_digit, digitsToNat_natDigits (n / 10),
      digitChar_toNat _ (Nat.mod_lt _ (by omega))]
    omega
termination_by n
decreasing_by omega

theorem parseDigits_natDigits (n : Nat) : parseDigits (natDigits n) = some n := by
  unfold parseDigits
  rw [if_pos, digitsToNat_natDigits]
  refine ⟨natDigits_ne_nil n, ?_⟩
  rw [List.all_eq_true]
  exact fun c hc => natDigits_all_digits n c hc

theorem parseInt_natDigits (n : Nat) : parseInt (natDigits n) = some (n : Int) := by
  cases hnd : natDigits n with
  | nil => exact absurd hnd (natDigits_ne_nil n)
  | cons c t =>
    have hc : c.isDigit = true := natDigits_all_digits n c (by rw [hnd]; simp)
    have hcd : ¬(c = '-') := by intro h; rw [h] at hc; exact absurd hc (by decide)
    have hcp : ¬(c = '+') := by intro h; rw [h] at hc; exact absurd hc (by decide)
    simp only [parseInt, if_neg hcd, if_neg hcp, ← hnd, parseDigits_natDigits]
    rfl

theorem splitDash_cons_ne {c : Char} (rest f : List Char)
    (r : List (List Char)) (hc : ¬(c = '-')) (h2 : splitDash rest = f :: r) :
    splitDash (c :: rest) = (c :: f) :: r := by
  unfold splitDash
  rw [if_neg hc, h2]

theorem splitDash_no_dash (s : List Char) (h : '-' ∉ s) : splitDash s = [s] := by
  induction s with
  | nil => rfl
  | cons c t ih =>
    have hc : ¬(c = '-') := fun hh => h (by simp [hh])
    have ht : '-' ∉ t := fun hh => h (by simp [hh])
    exact splitDash_cons_ne t t [] hc (ih ht)

theorem splitDash_append (a b : List Char) (h : '-' ∉ a) :
    splitDash (a ++ '-' :: b) = a :: splitDash b := by
  induction a with
  | nil => simp [splitDash]
  | cons c t ih =>
    have hc : ¬(c = '-') := fun hh => h (by simp [hh])
    have ht : '-' ∉ t := fun hh => h (by simp [hh])
    rw [List.cons_append]
    exact splitDash_cons_ne _ t _ hc (ih ht)

theorem splitDash_mkMetadata (bits param : Nat) :
    splitDash (mkMetadata bits param) = [natDigits bits, natDigits param] := by
  unfold mkMetadata
  rw [splitDash_append _ _ (natDigits_no_dash bits),
    splitDash_no_dash _ (natDigits_no_dash param)]

theorem mkMetadata_ne_nil (bits param : Nat) : ¬(mkMetadata bits param = []) := by
  unfold mkMetadata
  simp

theorem parse_mkMetadata (L q : Nat) (hi : Int) (hL : 1 ≤ L)
    (hq1 : 1 ≤ (q : Int)) (hq2 : (q : Int) < hi) :
    extract_parameters_from_metadata (some (mkMetadata L q)) 1 hi = .ok (L, q) := by
  simp only [extract_parameters_from_metadata, if_neg (mkMetadata_ne_nil L q),
    splitDash_mkMetadata, parseInt_natDigits]
  rw [if_neg (by omega : ¬((L : Int) < 1)), if_pos ⟨hq1, hq2⟩]
  simp

theorem parse_ok_bounds (md : Option (List Char)) (lo hi : Int) (ds q : Nat)
    (hlo : 1 ≤ lo)
    (h : extract_parameters_from_metadata md lo hi = .ok (ds, q)) :
    1 ≤ ds ∧ lo ≤ (q : Int) ∧ (q : Int) < hi := by
  cases md with
  | none => simp [extract_parameters_from_metadata] at h
  | some s =>
    simp only [extract_parameters_from_metadata] at h
    by_cases hs : s = []
    · rw [if_pos hs] at h
      exact absurd h (by simp)
    · rw [if_neg hs] at h
      split at h
      · split at h
        · simp at h
        · split at h
          · simp at h
          · split at h
            · simp at h
            · split at h
              · simp only [Except.ok.injEq, Prod.mk.injEq] at h
                obtain ⟨h1, h2⟩ := h
                omega
              · simp at h
      · simp at h

/-! ### Lemmas: the low-bit write and the eligibility predicate -/

theorem elig_iff (v : Int) : elig v = true ↔ ¬(v = 0) ∧ ¬(v = 1) := by
  simp [elig]

theorem writeBit_emod (v : Int) (b : Bool) :
    writeBit v b % 2 = if b then 1 else 0 := by
  unfold writeBit
  cases b <;> simp <;> omega

theorem lowBit_writeBit (v : Int) (b : Bool) : (writeBit v b % 2 == 1) = b := by
  rw [writeBit_emod]
  cases b <;> simp

theorem elig_writeBit (v : Int) (b : Bool) (h : elig v = true) :
    elig (writeBit v b) = true := by
  rw [elig_iff] at h ⊢
  unfold writeBit
  have h2 : v % 2 = 0 ∨ v % 2 = 1 := Int.emod_two_eq_zero_or_one v
  cases b <;> simp <;> omega

/-! ### Lemmas: `writeVals` -/

theorem writeVals_nil (bits : List Bool) (idx : Nat) : writeVals bits idx [] = [] := by
  simp [writeVals]

theorem length_writeVals (bits : List Bool) : ∀ (vs : List Int) (idx : Nat),
    (writeVals bits idx vs).length = vs.length := by
  intro vs
  induction vs with
  | nil => intro idx; simp [writeVals]
  | cons v t ih =>
    intro idx
    cases hb : bits[idx]? <;> simp [writeVals, hb, ih]

theorem writeVals_ge (bits : List Bool) (vs : List Int) (idx : Nat)
    (h : bits.length ≤ idx) : writeVals bits idx vs = vs := by
  cases vs with
  | nil => simp [writeVals]
  | cons v t =>
    have hb : bits[idx]? = none := by
      rw [List.getElem?_eq_none_iff]
      exact h
    simp [writeVals, hb]

theorem writeVals_append (bits : List Bool) : ∀ (a b : List Int) (idx : Nat),
    writeVals bits idx (a ++ b)
      = writeVals bits idx a ++ writeVals bits (idx + a.length) b := by
  intro a
  induction a with
  | nil => intro b idx; simp [writeVals]
  | cons v t ih =>
    intro b idx
    cases hb : bits[idx]? with
    | none =>
      have hge : bits.length ≤ idx := by
        rw [← List.getElem?_eq_none_iff]
        exact hb
      rw [List.cons_append]
      simp only [writeVals, hb]
      rw [writeVals_ge bits b _ (by simp; omega)]
      rfl
    | some bit =>
      rw [List.cons_append]
      simp only [writeVals, hb, ih]
      rw [List.length_cons]
      have : idx + 1 + t.length = idx + (t.length + 1) := by omega
      rw [this]
      simp

theorem map_lowBit_take_writeVals (bits : List Bool) : ∀ (E : List Int) (idx : Nat),
    bits.length - idx ≤ E.length →
    ((writeVals bits idx E).take (bits.length - idx)).map (fun v => v % 2 == 1)
      = bits.drop idx := by
  intro E
  induction E with
  | nil =>
    intro idx h
    have : bits.length ≤ idx := by simp at h; omega
    simp [writeVals, List.drop_eq_nil_of_le this]
  | cons v t ih =>
    intro idx h
    cases hb : bits[idx]? with
    | none =>
      have hge : bits.length ≤ idx := by
        rw [← List.getElem?_eq_none_iff]
        exact hb
      have h0 : bits.length - idx = 0 := by omega
      simp [h0, List.drop_eq_nil_of_le hge]
    | some bit =>
      obtain ⟨hlt, hval⟩ := List.getElem?_eq_some_iff.mp hb
      have hsub : bits.length - idx = (bits.length - (idx + 1)) + 1 := by omega
      simp only [writeVals, hb, hsub, List.take_succ_cons, List.map_cons,
        lowBit_writeBit]
      rw [ih (idx + 1) (by simp at h ⊢; omega)]
      rw [List.drop_eq_getElem_cons hlt, hval]

/-! ### Lemmas: scan positions -/

theorem pairList_nodup : pairList.Nodup := by decide

theorem posList_nodup (p : Nat) : (posList p).Nodup :=
  pairList_nodup.filter _

theorem posList_sublist {p q : Nat} (h : p ≤ q) :
    List.Sublist (posList p) (posList q) := by
  apply List.monotone_filter_right
  intro kl hkl
  simp only [decide_eq_true_eq] at *
  omega

/-! ### Lemmas: block scans -/

theorem valsAt_cons_pos (kl : Fin 8 × Fin 8) (ps : List (Fin 8 × Fin 8))
    (bl : Block) (h : elig (bl kl.1 kl.2) = true) :
    valsAt (kl :: ps) bl = bl kl.1 kl.2 :: valsAt ps bl := by
  simp [valsAt, h]

theorem valsAt_cons_neg (kl : Fin 8 × Fin 8) (ps : List (Fin 8 × Fin 8))
    (bl : Block) (h : elig (bl kl.1 kl.2) = false) :
    valsAt (kl :: ps) bl = valsAt ps bl := by
  simp [valsAt, h]

theorem updBlock_self (bl : Block) (k l : Fin 8) (v : Int) :
    updBlock bl k l v k l = v := by
  simp [updBlock]

theorem updBlock_ne (bl : Block) (k l : Fin 8) (v : Int) (k' l' : Fin 8)
    (h : ¬((k', l') = (k, l))) : updBlock bl k l v k' l' = bl k' l' := by
  unfold updBlock
  rw [if_neg]
  intro ⟨h1, h2⟩
  subst h1; subst h2
  exact h rfl

theorem valsAt_updBlock (ps : List (Fin 8 × Fin 8)) (bl : Block) (k l : Fin 8)
    (v : Int) (h : (k, l) ∉ ps) :
    valsAt ps (updBlock bl k l v) = valsAt ps bl := by
  induction ps with
  | nil => rfl
  | cons kl rest ih =>
    have hkl : ¬((kl.1, kl.2) = (k, l)) := by
      intro he
      apply h
      rw [← he, Prod.mk.eta]
      exact List.mem_cons_self kl rest
    have hv : updBlock bl k l v kl.1 kl.2 = bl kl.1 kl.2 := updBlock_ne _ _ _ _ _ _ hkl
    have hrest : (k, l) ∉ rest := fun hm => h (List.mem_cons_of_mem _ hm)
    cases helig : elig (bl kl.1 kl.2) with
    | false =>
      rw [valsAt_cons_neg _ _ _ (by rw [hv]; exact helig),
        valsAt_cons_neg _ _ _ helig]
      exact ih hrest
    | true =>
      rw [valsAt_cons_pos _ _ _ (by rw [hv]; exact helig),
        valsAt_cons_pos _ _ _ helig, hv, ih hrest]

theorem maskAt_congr (ps : List (Fin 8 × Fin 8)) (bl bl' : Block)
    (h : ∀ k l, elig (bl' k l) = elig (bl k l)) :
    maskAt ps bl' = maskAt ps bl := by
  unfold maskAt
  exact List.map_congr_left fun kl _ => h kl.1 kl.2

theorem maskAt_cons (kl : Fin 8 × Fin 8) (ps : List (Fin 8 × Fin 8))
    (bl : Block) :
    maskAt (kl :: ps) bl = elig (bl kl.1 kl.2) :: maskAt ps bl := rfl

theorem length_valsAt_eq_count (ps : List (Fin 8 × Fin 8)) (bl : Block) :
    (valsAt ps bl).length = (maskAt ps bl).count true := by
  induction ps with
  | nil => rfl
  | cons kl rest ih =>
    rw [maskAt_cons]
    cases helig : elig (bl kl.1 kl.2) with
    | false =>
      rw [valsAt_cons_neg _ _ _ helig, List.count_cons]
      simp [ih]
    | true =>
      rw [valsAt_cons_pos _ _ _ helig, List.count_cons, List.length_cons]
      simp [ih]

/-! ### Lemmas: the block embedder -/

theorem embedPos_spec (bits : List Bool) : ∀ (ps : List (Fin 8 × Fin 8)),
    ps.Nodup → ∀ (bl : Block) (idx : Nat), idx < bits.length →
    ∃ bl',
      embedPos bits ps bl idx
        = some (bl', idx + min (bits.length - idx) (valsAt ps bl).length,
            decide (bits.length - idx ≤ (valsAt ps bl).length)) ∧
      valsAt ps bl' = writeVals bits idx (valsAt ps bl) ∧
      (∀ k l, elig (bl' k l) = elig (bl k l)) ∧
      (∀ k l, (k, l) ∉ ps → bl' k l = bl k l) := by
  intro ps
  induction ps with
  | nil =>
    intro _ bl idx hidx
    refine ⟨bl, ?_, by simp [valsAt, writeVals], fun k l => rfl, fun k l _ => rfl⟩
    have h1 : min (bits.length - idx) (valsAt ([] : List (Fin 8 × Fin 8)) bl).length
        = 0 := by
      simp [valsAt]
    have h2 : decide
        (bits.length - idx ≤ (valsAt ([] : List (Fin 8 × Fin 8)) bl).length)
        = false := by
      simp [valsAt]
      omega
    rw [h1, h2, Nat.add_zero]
    rfl
  | cons kl rest ih =>
    intro hnd bl idx hidx
    obtain ⟨hkl, hndr⟩ := List.nodup_cons.mp hnd
    have hklr : (kl.1, kl.2) ∉ rest := by
      rw [Prod.mk.eta]
      exact hkl
    cases helig : elig (bl kl.1 kl.2) with
    | false =>
      obtain ⟨bl', heq, hvals, hel, hun⟩ := ih hndr bl idx hidx
      have hstep : embedPos bits (kl :: rest) bl idx = embedPos bits rest bl idx := by
        simp [embedPos, helig]
      refine ⟨bl', ?_, ?_, hel, ?_⟩
      · rw [hstep, heq, valsAt_cons_neg _ _ _ helig]
      · rw [valsAt_cons_neg _ _ _ (by rw [hel]; exact helig), hvals,
          valsAt_cons_neg _ _ _ helig]
      · intro k l hmem
        exact hun k l fun hm => hmem (List.mem_cons_of_mem _ hm)
    | true =>
      have hb : bits[idx]? = some bits[idx] := List.getElem?_eq_getElem hidx
      have hbl1kl : updBlock bl kl.1 kl.2 (writeBit (bl kl.1 kl.2) bits[idx]) kl.1 kl.2
          = writeBit (bl kl.1 kl.2) bits[idx] := updBlock_self _ _ _ _
      have hel1 : ∀ k l,
          elig (updBlock bl kl.1 kl.2 (writeBit (bl kl.1 kl.2) bits[idx]) k l)
            = elig (bl k l) := by
        intro k l
        by_cases hc : (k, l) = (kl.1, kl.2)
        · obtain ⟨h1, h2⟩ := Prod.mk.injEq .. |>.mp hc
          subst h1; subst h2
          rw [hbl1kl, helig, elig_writeBit _ _ helig]
        · rw [updBlock_ne _ _ _ _ _ _ hc]
      by_cases hend : idx + 1 = bits.length
      · have hstep : embedPos bits (kl :: rest) bl idx
            = some (updBlock bl kl.1 kl.2 (writeBit (bl kl.1 kl.2) bits[idx]),
                idx + 1, true) := by
          simp [embedPos, helig, hb, hend]
        refine ⟨updBlock bl kl.1 kl.2 (writeBit (bl kl.1 kl.2) bits[idx]),
          ?_, ?_, hel1, ?_⟩
        · rw [hstep, valsAt_cons_pos _ _ _ helig]
          have h1 : min (bits.length - idx)
              (bl kl.1 kl.2 :: valsAt rest bl).length = 1 := by
            rw [List.length_cons]
            omega
          have h2 : decide (bits.length - idx
              ≤ (bl kl.1 kl.2 :: valsAt rest bl).length) = true := by
            rw [List.length_cons]
            simp
            omega
          rw [h1, h2]
        · rw [valsAt_cons_pos _ _ _ (by rw [hel1]; exact helig),
            valsAt_cons_pos _ _ _ helig, hbl1kl,
            valsAt_updBlock _ _ _ _ _ hklr]
          show _ = writeVals bits idx (bl kl.1 kl.2 :: valsAt rest bl)
          rw [writeVals, hb]
          rw [writeVals_ge bits _ _ (by omega)]
        · intro k l hmem
          apply updBlock_ne
          intro hc
          apply hmem
          rw [hc, Prod.mk.eta]
          exact List.mem_cons_self kl rest
      · have hidx1 : idx + 1 < bits.length := by omega
        obtain ⟨bl2, heq2, hvals2, hel2, hun2⟩ :=
          ih hndr (updBlock bl kl.1 kl.2 (writeBit (bl kl.1 kl.2) bits[idx]))
            (idx + 1) hidx1
        have hrest1 : valsAt rest
            (updBlock bl kl.1 kl.2 (writeBit (bl kl.1 kl.2) bits[idx]))
            = valsAt rest bl := valsAt_updBlock _ _ _ _ _ hklr
        have hstep : embedPos bits (kl :: rest) bl idx
            = embedPos bits rest
                (updBlock bl kl.1 kl.2 (writeBit (bl kl.1 kl.2) bits[idx]))
                (idx + 1) := by
          simp [embedPos, helig, hb, hend]
        refine ⟨bl2, ?_, ?_, fun k l => (hel2 k l).trans (hel1 k l), ?_⟩
        · rw [hstep, heq2, hrest1, valsAt_cons_pos _ _ _ helig]
          have hA : idx + 1 + min (bits.length - (idx + 1)) (valsAt rest bl).length
              = idx + min (bits.length - idx)
                  (bl kl.1 kl.2 :: valsAt rest bl).length := by
            rw [List.length_cons]
            omega
          have hB : decide (bits.length - (idx + 1) ≤ (valsAt rest bl).length)
              = decide (bits.length - idx
                  ≤ (bl kl.1 kl.2 :: valsAt rest bl).length) := by
            rw [List.length_cons, decide_eq_decide]
            omega
          rw [hA, hB]
        · have hhead : bl2 kl.1 kl.2 = writeBit (bl kl.1 kl.2) bits[idx] := by
            rw [hun2 kl.1 kl.2 hklr, hbl1kl]
          rw [valsAt_cons_pos _ _ _ (by rw [hel2, hel1]; exact helig),
            valsAt_cons_pos _ _ _ helig, hhead, hvals2, hrest1]
          show _ = writeVals bits idx (bl kl.1 kl.2 :: valsAt rest bl)
          rw [writeVals, hb]
        · intro k l hmem
          rw [hun2 k l fun hm => hmem (List.mem_cons_of_mem _ hm)]
          apply updBlock_ne
          intro hc
          apply hmem
          rw [hc, Prod.mk.eta]
          exact List.mem_cons_self kl rest

/-! ### Lemmas: the channel embedder -/

theorem chanEligVals_cons (p : Nat) (bl : Block) (rest : Chan) :
    chanEligVals p (bl :: rest) = valsAt (posList p) bl ++ chanEligVals p rest := by
  simp [chanEligVals, valsAt, blockEligVals]

theorem chanEligMask_cons (p : Nat) (bl : Block) (rest : Chan) :
    chanEligMask p (bl :: rest) = maskAt (posList p) bl ++ chanEligMask p rest := by
  simp [chanEligMask, maskAt]

theorem numAvail_cons (p : Nat) (bl : Block) (rest : Chan) :
    numAvail p (bl :: rest) = (valsAt (posList p) bl).length + numAvail p rest := by
  simp [numAvail, chanEligVals_cons]

theorem numAvail_eq_count (p : Nat) (c : Chan) :
    numAvail p c = (chanEligMask p c).count true := by
  induction c with
  | nil => rfl
  | cons bl rest ih =>
    rw [numAvail_cons, chanEligMask_cons, List.count_append,
      length_valsAt_eq_count, ih]

theorem embedPos_cons_neg (bits : List Bool) (kl : Fin 8 × Fin 8)
    (rest : List (Fin 8 × Fin 8)) (bl : Block) (idx : Nat)
    (h : elig (bl kl.1 kl.2) = false) :
    embedPos bits (kl :: rest) bl idx = embedPos bits rest bl idx := by
  simp [embedPos, h]

theorem embedPos_cons_pos_none (bits : List Bool) (kl : Fin 8 × Fin 8)
    (rest : List (Fin 8 × Fin 8)) (bl : Block) (idx : Nat)
    (h : elig (bl kl.1 kl.2) = true) (hb : bits[idx]? = none) :
    embedPos bits (kl :: rest) bl idx = none := by
  simp [embedPos, h, hb]

theorem embedPos_cons_pos_end (bits : List Bool) (kl : Fin 8 × Fin 8)
    (rest : List (Fin 8 × Fin 8)) (bl : Block) (idx : Nat) (b : Bool)
    (h : elig (bl kl.1 kl.2) = true) (hb : bits[idx]? = some b)
    (hend : idx + 1 = bits.length) :
    embedPos bits (kl :: rest) bl idx
      = some (updBlock bl kl.1 kl.2 (writeBit (bl kl.1 kl.2) b), idx + 1, true) := by
  simp [embedPos, h, hb, hend]

theorem embedPos_cons_pos_go (bits : List Bool) (kl : Fin 8 × Fin 8)
    (rest : List (Fin 8 × Fin 8)) (bl : Block) (idx : Nat) (b : Bool)
    (h : elig (bl kl.1 kl.2) = true) (hb : bits[idx]? = some b)
    (hend : ¬(idx + 1 = bits.length)) :
    embedPos bits (kl :: rest) bl idx
      = embedPos bits rest (updBlock bl kl.1 kl.2 (writeBit (bl kl.1 kl.2) b))
          (idx + 1) := by
  simp [embedPos, h, hb, hend]

theorem elig_updBlock_writeBit (bl : Block) (kl : Fin 8 × Fin 8) (b : Bool)
    (helig : elig (bl kl.1 kl.2) = true) : ∀ k l,
    elig (updBlock bl kl.1 kl.2 (writeBit (bl kl.1 kl.2) b) k l) = elig (bl k l) := by
  intro k l
  by_cases hc : (k, l) = (kl.1, kl.2)
  · obtain ⟨h1, h2⟩ := Prod.mk.injEq .. |>.mp hc
    subst h1; subst h2
    rw [updBlock_self, helig, elig_writeBit _ _ helig]
  · rw [updBlock_ne _ _ _ _ _ _ hc]

theorem embedPos_some_mask (bits : List Bool) : ∀ (ps : List (Fin 8 × Fin 8))
    (bl : Block) (idx : Nat) (bl' : Block) (i : Nat) (f : Bool),
    embedPos bits ps bl idx = some (bl', i, f) →
    ∀ k l, elig (bl' k l) = elig (bl k l) := by
  intro ps
  induction ps with
  | nil =>
    intro bl idx bl' i f h k l
    simp only [embedPos, Option.some.injEq, Prod.mk.injEq] at h
    rw [← h.1]
  | cons kl rest ih =>
    intro bl idx bl' i f h k l
    by_cases helig : elig (bl kl.1 kl.2) = true
    · cases hb : bits[idx]? with
      | none =>
        rw [embedPos_cons_pos_none bits kl rest bl idx helig hb] at h
        exact absurd h (by simp)
      | some b =>
        by_cases hend : idx + 1 = bits.length
        · rw [embedPos_cons_pos_end bits kl rest bl idx b helig hb hend] at h
          simp only [Option.some.injEq, Prod.mk.injEq] at h
          rw [← h.1]
          exact elig_updBlock_writeBit bl kl b helig k l
        · rw [embedPos_cons_pos_go bits kl rest bl idx b helig hb hend] at h
          exact (ih _ _ _ _ _ h k l).trans (elig_updBlock_writeBit bl kl b helig k l)
    · rw [embedPos_cons_neg bits kl rest bl idx (by simpa using helig)] at h
      exact ih _ _ _ _ _ h k l

theorem embedChan_some_mask (p : Nat) (bits : List Bool) : ∀ (c : Chan)
    (idx : Nat) (c' : Chan) (i : Nat) (f : Bool),
    embedChan p bits c idx = some (c', i, f) →
    chanEligMask p c' = chanEligMask p c ∧ c'.length = c.length := by
  intro c
  induction c with
  | nil =>
    intro idx c' i f h
    simp only [embedChan, Option.some.injEq, Prod.mk.injEq] at h
    rw [← h.1]
    exact ⟨rfl, rfl⟩
  | cons bl rest ih =>
    intro idx c' i f h
    simp only [embedChan] at h
    cases hp : embedPos bits (posList p) bl idx with
    | none => rw [hp] at h; exact absurd h (by simp)
    | some r =>
      obtain ⟨bl', i1, f1⟩ := r
      rw [hp] at h
      have hmask1 : maskAt (posList p) bl' = maskAt (posList p) bl :=
        maskAt_congr _ _ _ (embedPos_some_mask bits _ _ _ _ _ _ hp)
      cases f1 with
      | true =>
        dsimp only at h
        simp only [Option.some.injEq, Prod.mk.injEq] at h
        rw [← h.1, chanEligMask_cons, chanEligMask_cons, hmask1]
        exact ⟨rfl, by simp⟩
      | false =>
        dsimp only at h
        cases hc : embedChan p bits rest i1 with
        | none => rw [hc] at h; exact absurd h (by simp)
        | some r2 =>
          obtain ⟨rest', i2, f2⟩ := r2
          rw [hc] at h
          simp only [Option.some.injEq, Prod.mk.injEq] at h
          obtain ⟨hm, hl⟩ := ih _ _ _ _ hc
          rw [← h.1, chanEligMask_cons, chanEligMask_cons, hmask1, hm]
          exact ⟨rfl, by simp [hl]⟩

theorem embedChan_spec (p : Nat) (bits : List Bool) : ∀ (c : Chan) (idx : Nat),
    idx < bits.length →
    ∃ c',
      embedChan p bits c idx
        = some (c', idx + min (bits.length - idx) (numAvail p c),
            decide (bits.length - idx ≤ numAvail p c)) ∧
      chanEligVals p c' = writeVals bits idx (chanEligVals p c) := by
  intro c
  induction c with
  | nil =>
    intro idx hidx
    refine ⟨[], ?_, by simp [chanEligVals, writeVals]⟩
    have h1 : numAvail p ([] : Chan) = 0 := rfl
    rw [h1, Nat.min_zero, Nat.add_zero,
      decide_eq_false (by omega : ¬(bits.length - idx ≤ 0))]
    rfl
  | cons bl rest ihc =>
    intro idx hidx
    obtain ⟨bl', heq, hvals, hel, hun⟩ :=
      embedPos_spec bits (posList p) (posList_nodup p) bl idx hidx
    by_cases hfin : bits.length - idx ≤ (valsAt (posList p) bl).length
    · have heq' : embedPos bits (posList p) bl idx
          = some (bl', idx + (bits.length - idx), true) := by
        rw [heq, Nat.min_eq_left hfin, decide_eq_true hfin]
      have hstep : embedChan p bits (bl :: rest) idx
          = some (bl' :: rest, idx + (bits.length - idx), true) := by
        simp only [embedChan, heq']
      refine ⟨bl' :: rest, ?_, ?_⟩
      · rw [hstep, numAvail_cons]
        have hmin : min (bits.length - idx)
            ((valsAt (posList p) bl).length + numAvail p rest)
            = bits.length - idx := by omega
        have hdec : decide (bits.length - idx
            ≤ (valsAt (posList p) bl).length + numAvail p rest) = true := by
          rw [decide_eq_true_eq]
          omega
        rw [hmin, hdec]
      · rw [chanEligVals_cons, chanEligVals_cons, hvals, writeVals_append]
        have hge : writeVals bits (idx + (valsAt (posList p) bl).length)
            (chanEligVals p rest) = chanEligVals p rest :=
          writeVals_ge _ _ _ (by omega)
        rw [hge]
    · have hlt : (valsAt (posList p) bl).length < bits.length - idx := by omega
      have heq' : embedPos bits (posList p) bl idx
          = some (bl', idx + (valsAt (posList p) bl).length, false) := by
        rw [heq, Nat.min_eq_right (by omega), decide_eq_false (by omega)]
      have hidx1 : idx + (valsAt (posList p) bl).length < bits.length := by omega
      obtain ⟨rest', heqr, hvalsr⟩ := ihc (idx + (valsAt (posList p) bl).length) hidx1
      have hstep : embedChan p bits (bl :: rest) idx
          = some (bl' :: rest',
              idx + (valsAt (posList p) bl).length
                + min (bits.length - (idx + (valsAt (posList p) bl).length))
                    (numAvail p rest),
              decide (bits.length - (idx + (valsAt (posList p) bl).length)
                ≤ numAvail p rest)) := by
        simp only [embedChan, heq', heqr]
      refine ⟨bl' :: rest', ?_, ?_⟩
      · rw [hstep, numAvail_cons]
        have hA : idx + (valsAt (posList p) bl).length
            + min (bits.length - (idx + (valsAt (posList p) bl).length))
                (numAvail p rest)
            = idx + min (bits.length - idx)
                ((valsAt (posList p) bl).length + numAvail p rest) := by
          omega
        have hB : decide (bits.length - (idx + (valsAt (posList p) bl).length)
              ≤ numAvail p rest)
            = decide (bits.length - idx
              ≤ (valsAt (posList p) bl).length + numAvail p rest) := by
          rw [decide_eq_decide]
          omega
        rw [hA, hB]
      · rw [chanEligVals_cons, chanEligVals_cons, hvals, hvalsr, writeVals_append]

/-! ### Lemmas: the channel extractor -/

theorem extractPos_spec : ∀ (ps : List (Fin 8 × Fin 8)) (bl : Block) (ds : Nat)
    (acc : List Bool), 1 ≤ ds →
    extractPos ps bl ds acc
      = (ds - min ds (valsAt ps bl).length,
         acc ++ ((valsAt ps bl).take ds).map (fun v => v % 2 == 1)) := by
  intro ps
  induction ps with
  | nil =>
    intro bl ds acc hds
    simp [extractPos, valsAt]
  | cons kl rest ih =>
    intro bl ds acc hds
    cases helig : elig (bl kl.1 kl.2) with
    | false =>
      have hstep : extractPos (kl :: rest) bl ds acc = extractPos rest bl ds acc := by
        simp [extractPos, helig]
      rw [hstep, ih bl ds acc hds, valsAt_cons_neg _ _ _ helig]
    | true =>
      by_cases h1 : ds - 1 = 0
      · have hds1 : ds = 1 := by omega
        have hstep : extractPos (kl :: rest) bl ds acc
            = (0, acc ++ [bl kl.1 kl.2 % 2 == 1]) := by
          simp [extractPos, helig, h1]
        rw [hstep, valsAt_cons_pos _ _ _ helig, hds1]
        simp
      · have hstep : extractPos (kl :: rest) bl ds acc
            = extractPos rest bl (ds - 1) (acc ++ [bl kl.1 kl.2 % 2 == 1]) := by
          simp [extractPos, helig, h1]
        rw [hstep, ih bl (ds - 1) _ (by omega), valsAt_cons_pos _ _ _ helig]
        have htake : (bl kl.1 kl.2 :: valsAt rest bl).take ds
            = bl kl.1 kl.2 :: (valsAt rest bl).take (ds - 1) := by
          cases ds with
          | zero => omega
          | succ m => simp [List.take_succ_cons]
        rw [htake, List.map_cons, List.append_cons, List.length_cons]
        simp only [Prod.mk.injEq]
        exact ⟨by omega, by simp⟩

theorem extractChan_spec (p : Nat) : ∀ (c : Chan) (ds : Nat) (acc : List Bool),
    1 ≤ ds →
    extractChan p c ds acc
      = (ds - min ds (numAvail p c),
         acc ++ ((chanEligVals p c).take ds).map (fun v => v % 2 == 1)) := by
  intro c
  induction c with
  | nil =>
    intro ds acc hds
    simp only [extractChan, chanEligVals, numAvail]
    simp
  | cons bl rest ih =>
    intro ds acc hds
    have hpos := extractPos_spec (posList p) bl ds acc hds
    by_cases hle : ds ≤ (valsAt (posList p) bl).length
    · have hz : ds - min ds (valsAt (posList p) bl).length = 0 := by omega
      have hstep : extractChan p (bl :: rest) ds acc
          = (0, acc ++ ((valsAt (posList p) bl).take ds).map (fun v => v % 2 == 1)) := by
        simp only [extractChan, hpos, hz]
        simp
      rw [hstep, numAvail_cons, chanEligVals_cons]
      have hmin : ds - min ds ((valsAt (posList p) bl).length + numAvail p rest)
          = 0 := by omega
      rw [hmin, List.take_append_eq_append_take,
        show ds - (valsAt (posList p) bl).length = 0 from by omega, List.take_zero,
        List.append_nil]
    · have hgt : (valsAt (posList p) bl).length < ds := by omega
      have hne : ds - min ds (valsAt (posList p) bl).length
          = ds - (valsAt (posList p) bl).length := by omega
      have hnz : ¬(ds - (valsAt (posList p) bl).length = 0) := by omega
      have hstep : extractChan p (bl :: rest) ds acc
          = extractChan p rest (ds - (valsAt (posList p) bl).length)
              (acc ++ ((valsAt (posList p) bl).take ds).map (fun v => v % 2 == 1)) := by
        simp only [extractChan, hpos, hne]
        simp [hnz]
      rw [hstep, ih _ _ (by omega), numAvail_cons, chanEligVals_cons]
      have htA : (valsAt (posList p) bl).take ds = valsAt (posList p) bl :=
        List.take_of_length_le (by omega)
      rw [List.take_append_eq_append_take, htA, List.map_append, List.append_assoc]
      simp only [Prod.mk.injEq]
      exact ⟨by omega, by simp⟩

/-! ### Lemmas: DCT image-level embed and extract -/

theorem extract_stego (S : StegJpegImage) (ds p : Nat)
    (hpar : extract_parameters_from_metadata S.exif 1 9 = .ok (ds, p))
    (hds : 1 ≤ ds) :
    S.extract = .ok
      (bitsToBytes
        (((chanEligVals p S.Y ++ chanEligVals p S.Cr ++ chanEligVals p S.Cb).take
            ds).map (fun v => v % 2 == 1)),
       ds - min ds (dctAvailBits p S)) := by
  unfold StegJpegImage.extract
  rw [hpar]
  dsimp only
  rw [extractChan_spec p S.Y ds [] hds]
  dsimp only
  rw [List.nil_append]
  simp only [numAvail, dctAvailBits] at *
  by_cases hY : ds ≤ (chanEligVals p S.Y).length
  · rw [if_pos (by omega : ds - min ds (chanEligVals p S.Y).length = 0)]
    have htake : ((chanEligVals p S.Y ++ chanEligVals p S.Cr)
        ++ chanEligVals p S.Cb).take ds = (chanEligVals p S.Y).take ds := by
      rw [List.take_append_eq_append_take, List.take_append_eq_append_take,
        show ds - (chanEligVals p S.Y).length = 0 from by omega,
        show ds - (chanEligVals p S.Y ++ chanEligVals p S.Cr).length = 0 from by
          simp only [List.length_append]; omega]
      simp
    rw [htake, show ds - min ds ((chanEligVals p S.Y).length
      + (chanEligVals p S.Cr).length + (chanEligVals p S.Cb).length) = 0 from by omega]
  · rw [if_neg (by omega : ¬(ds - min ds (chanEligVals p S.Y).length = 0))]
    rw [show ds - min ds (chanEligVals p S.Y).length
      = ds - (chanEligVals p S.Y).length from by omega]
    rw [extractChan_spec p S.Cr (ds - (chanEligVals p S.Y).length) _ (by omega)]
    dsimp only
    simp only [numAvail]
    have htY : (chanEligVals p S.Y).take ds = chanEligVals p S.Y :=
      List.take_of_length_le (by omega)
    rw [htY]
    by_cases hCr : ds - (chanEligVals p S.Y).length ≤ (chanEligVals p S.Cr).length
    · rw [if_pos (by omega : ds - (chanEligVals p S.Y).length
        - min (ds - (chanEligVals p S.Y).length) (chanEligVals p S.Cr).length = 0)]
      have htake : ((chanEligVals p S.Y ++ chanEligVals p S.Cr)
          ++ chanEligVals p S.Cb).take ds
          = chanEligVals p S.Y
            ++ (chanEligVals p S.Cr).take (ds - (chanEligVals p S.Y).length) := by
        rw [List.take_append_eq_append_take, List.take_append_eq_append_take, htY,
          show ds - (chanEligVals p S.Y ++ chanEligVals p S.Cr).length = 0 from by
            simp only [List.length_append]; omega]
        simp
      rw [htake, show ds - min ds ((chanEligVals p S.Y).length
          + (chanEligVals p S.Cr).length + (chanEligVals p S.Cb).length) = 0 from by
          omega,
        List.map_append]
    · rw [if_neg (by omega : ¬(ds - (chanEligVals p S.Y).length
        - min (ds - (chanEligVals p S.Y).length) (chanEligVals p S.Cr).length = 0))]
      rw [show ds - (chanEligVals p S.Y).length
          - min (ds - (chanEligVals p S.Y).length) (chanEligVals p S.Cr).length
          = ds - (chanEligVals p S.Y).length - (chanEligVals p S.Cr).length from by
          omega]
      rw [extractChan_spec p S.Cb
        (ds - (chanEligVals p S.Y).length - (chanEligVals p S.Cr).length) _ (by omega)]
      dsimp only
      simp only [numAvail]
      have htCr : (chanEligVals p S.Cr).take (ds - (chanEligVals p S.Y).length)
          = chanEligVals p S.Cr := List.take_of_length_le (by omega)
      rw [htCr]
      have htake : ((chanEligVals p S.Y ++ chanEligVals p S.Cr)
          ++ chanEligVals p S.Cb).take ds
          = (chanEligVals p S.Y ++ chanEligVals p S.Cr)
            ++ (chanEligVals p S.Cb).take
                (ds - (chanEligVals p S.Y).length - (chanEligVals p S.Cr).length) := by
        rw [List.take_append_eq_append_take,
          List.take_of_length_le (show (chanEligVals p S.Y
            ++ chanEligVals p S.Cr).length ≤ ds from by
            simp only [List.length_append]; omega)]
        congr 2
        simp only [List.length_append]
        omega
      rw [htake]
      simp only [Except.ok.injEq, Prod.mk.injEq, List.map_append, List.append_assoc]
      refine ⟨trivial, by omega⟩

theorem embed_data_ok (img : JpegImage) (data : List Nat)
    (hlen : 1 ≤ data.length) (hcap : data.length ≤ img.storage_capacity) :
    ∃ y' cr' cb',
      img.embed_data data
        = (.ok ⟨y', cr', cb', some (mkMetadata (8 * data.length) img.perceptibility)⟩,
           { img with exif := some (mkMetadata (8 * data.length) img.perceptibility) }) ∧
      chanEligVals img.perceptibility y' ++ chanEligVals img.perceptibility cr'
          ++ chanEligVals img.perceptibility cb'
        = writeVals (bytesToBits data) 0
            (chanEligVals img.perceptibility img.Y
              ++ chanEligVals img.perceptibility img.Cr
              ++ chanEligVals img.perceptibility img.Cb) ∧
      numAvail img.perceptibility y' = numAvail img.perceptibility img.Y ∧
      numAvail img.perceptibility cr' = numAvail img.perceptibility img.Cr ∧
      numAvail img.perceptibility cb' = numAvail img.perceptibility img.Cb := by
  have hL : (bytesToBits data).length = 8 * data.length := length_bytesToBits data
  have hcap8 : 8 * img.storage_capacity
      ≤ numAvail img.perceptibility img.Y + numAvail img.perceptibility img.Cr
        + numAvail img.perceptibility img.Cb := by
    have h := Nat.div_mul_le_self (numAvail img.perceptibility img.Y
      + numAvail img.perceptibility img.Cr + numAvail img.perceptibility img.Cb) 8
    unfold JpegImage.storage_capacity
    omega
  have hLT : (bytesToBits data).length
      ≤ numAvail img.perceptibility img.Y + numAvail img.perceptibility img.Cr
        + numAvail img.perceptibility img.Cb := by omega
  have hL1 : 0 < (bytesToBits data).length := by omega
  obtain ⟨y', heqY, hvalsY⟩ :=
    embedChan_spec img.perceptibility (bytesToBits data) img.Y 0 hL1
  obtain ⟨hmaskY, -⟩ := embedChan_some_mask _ _ _ _ _ _ _ heqY
  have hnaY : numAvail img.perceptibility y' = numAvail img.perceptibility img.Y := by
    rw [numAvail_eq_count, numAvail_eq_count, hmaskY]
  have heY : (chanEligVals img.perceptibility img.Y).length
      = numAvail img.perceptibility img.Y := rfl
  have heCr : (chanEligVals img.perceptibility img.Cr).length
      = numAvail img.perceptibility img.Cr := rfl
  unfold JpegImage.embed_data
  rw [if_neg (by omega : ¬(data.length > img.storage_capacity))]
  dsimp only
  rw [heqY]
  dsimp only
  simp only [Nat.zero_add, Nat.sub_zero]
  by_cases hY : (bytesToBits data).length ≤ numAvail img.perceptibility img.Y
  · rw [if_pos (by omega :
      min (bytesToBits data).length (numAvail img.perceptibility img.Y)
        = (bytesToBits data).length)]
    refine ⟨y', img.Cr, img.Cb, rfl, ?_, hnaY, rfl, rfl⟩
    rw [writeVals_append, writeVals_append, hvalsY]
    have hg1 : writeVals (bytesToBits data)
        (0 + (chanEligVals img.perceptibility img.Y).length)
        (chanEligVals img.perceptibility img.Cr)
        = chanEligVals img.perceptibility img.Cr :=
      writeVals_ge _ _ _ (by omega)
    have hg2 : writeVals (bytesToBits data)
        (0 + (chanEligVals img.perceptibility img.Y
          ++ chanEligVals img.perceptibility img.Cr).length)
        (chanEligVals img.perceptibility img.Cb)
        = chanEligVals img.perceptibility img.Cb :=
      writeVals_ge _ _ _ (by simp only [List.length_append]; omega)
    rw [hg1, hg2]
  · rw [if_neg (by omega :
      ¬(min (bytesToBits data).length (numAvail img.perceptibility img.Y)
        = (bytesToBits data).length))]
    rw [show min (bytesToBits data).length (numAvail img.perceptibility img.Y)
      = numAvail img.perceptibility img.Y from by omega]
    obtain ⟨cr', heqCr, hvalsCr⟩ :=
      embedChan_spec img.perceptibility (bytesToBits data) img.Cr
        (numAvail img.perceptibility img.Y) (by omega)
    obtain ⟨hmaskCr, -⟩ := embedChan_some_mask _ _ _ _ _ _ _ heqCr
    have hnaCr : numAvail img.perceptibility cr'
        = numAvail img.perceptibility img.Cr := by
      rw [numAvail_eq_count, numAvail_eq_count, hmaskCr]
    rw [heqCr]
    dsimp only
    by_cases hCr : (bytesToBits data).length - numAvail img.perceptibility img.Y
        ≤ numAvail img.perceptibility img.Cr
    · rw [if_pos (by omega : numAvail img.perceptibility img.Y
        + min ((bytesToBits data).length - numAvail img.perceptibility img.Y)
            (numAvail img.perceptibility img.Cr)
        = (bytesToBits data).length)]
      refine ⟨y', cr', img.Cb, rfl, ?_, hnaY, hnaCr, rfl⟩
      rw [writeVals_append, writeVals_append, hvalsY, Nat.zero_add, heY, hvalsCr]
      have hg2 : writeVals (bytesToBits data)
          (0 + (chanEligVals img.perceptibility img.Y
            ++ chanEligVals img.perceptibility img.Cr).length)
          (chanEligVals img.perceptibility img.Cb)
          = chanEligVals img.perceptibility img.Cb :=
        writeVals_ge _ _ _ (by simp only [List.length_append]; omega)
      rw [hg2]
    · rw [if_neg (by omega : ¬(numAvail img.perceptibility img.Y
        + min ((bytesToBits data).length - numAvail img.perceptibility img.Y)
            (numAvail img.perceptibility img.Cr)
        = (bytesToBits data).length))]
      rw [show numAvail img.perceptibility img.Y
          + min ((bytesToBits data).length - numAvail img.perceptibility img.Y)
              (numAvail img.perceptibility img.Cr)
          = numAvail img.perceptibility img.Y + numAvail img.perceptibility img.Cr
          from by omega]
      obtain ⟨cb', heqCb, hvalsCb⟩ :=
        embedChan_spec img.perceptibility (bytesToBits data) img.Cb
          (numAvail img.perceptibility img.Y + numAvail img.perceptibility img.Cr)
          (by omega)
      obtain ⟨hmaskCb, -⟩ := embedChan_some_mask _ _ _ _ _ _ _ heqCb
      have hnaCb : numAvail img.perceptibility cb'
          = numAvail img.perceptibility img.Cb := by
        rw [numAvail_eq_count, numAvail_eq_count, hmaskCb]
      rw [heqCb]
      dsimp only
      refine ⟨y', cr', cb', rfl, ?_, hnaY, hnaCr, hnaCb⟩
      rw [writeVals_append, writeVals_append, hvalsY, Nat.zero_add, heY, hvalsCr,
        hvalsCb]
      congr 2
      simp only [List.length_append]
      omega

theorem storage_capacity_le (img : JpegImage) :
    8 * img.storage_capacity
      ≤ numAvail img.perceptibility img.Y + numAvail img.perceptibility img.Cr
        + numAvail img.perceptibility img.Cb := by
  have h := Nat.div_mul_le_self (numAvail img.perceptibility img.Y
    + numAvail img.perceptibility img.Cr + numAvail img.perceptibility img.Cb) 8
  unfold JpegImage.storage_capacity
  omega

theorem dct_roundtrip (img : JpegImage) (data : List Nat)
    (hbytes : ∀ b ∈ data, b < 256)
    (hp1 : 1 ≤ img.perceptibility) (hp8 : img.perceptibility ≤ 8)
    (hlen : 1 ≤ data.length) (hcap : data.length ≤ img.storage_capacity) :
    ∃ S, (img.embed_data data).1 = .ok S ∧ S.extract = .ok (data, 0) := by
  obtain ⟨y', cr', cb', hemb, hvals, hnY, hnCr, hnCb⟩ :=
    embed_data_ok img data hlen hcap
  have hL : (bytesToBits data).length = 8 * data.length := length_bytesToBits data
  have hT : 8 * data.length
      ≤ numAvail img.perceptibility img.Y + numAvail img.perceptibility img.Cr
        + numAvail img.perceptibility img.Cb := by
    have h := storage_capacity_le img
    omega
  refine ⟨⟨y', cr', cb', some (mkMetadata (8 * data.length) img.perceptibility)⟩,
    by rw [hemb], ?_⟩
  have hpar := parse_mkMetadata (8 * data.length) img.perceptibility 9
    (by omega) (by omega) (by omega)
  have hextract := extract_stego
    ⟨y', cr', cb', some (mkMetadata (8 * data.length) img.perceptibility)⟩
    (8 * data.length) img.perceptibility hpar (by omega)
  rw [hextract]
  have havail : dctAvailBits img.perceptibility
      ⟨y', cr', cb', some (mkMetadata (8 * data.length) img.perceptibility)⟩
      = numAvail img.perceptibility img.Y + numAvail img.perceptibility img.Cr
        + numAvail img.perceptibility img.Cb := by
    unfold dctAvailBits
    dsimp only
    rw [hnY, hnCr, hnCb]
  have hlenE : (chanEligVals img.perceptibility img.Y
      ++ chanEligVals img.perceptibility img.Cr
      ++ chanEligVals img.perceptibility img.Cb).length
      = numAvail img.perceptibility img.Y + numAvail img.perceptibility img.Cr
        + numAvail img.perceptibility img.Cb := by
    simp only [List.length_append]
    rfl
  have hmap : (((chanEligVals img.perceptibility y'
      ++ chanEligVals img.perceptibility cr'
      ++ chanEligVals img.perceptibility cb').take (8 * data.length)).map
        (fun v => v % 2 == 1)) = bytesToBits data := by
    rw [hvals, ← hL]
    have hres := map_lowBit_take_writeVals (bytesToBits data)
      (chanEligVals img.perceptibility img.Y ++ chanEligVals img.perceptibility img.Cr
        ++ chanEligVals img.perceptibility img.Cb) 0 (by omega)
    simpa using hres
  dsimp only
  rw [hmap, havail, bitsToBytes_bytesToBits data hbytes,
    show 8 * data.length - min (8 * data.length)
      (numAvail img.perceptibility img.Y + numAvail img.perceptibility img.Cr
        + numAvail img.perceptibility img.Cb) = 0 from by omega]

/-! ### Lemmas: the pixel write and read -/

theorem bitsVal_replicate_false (k : Nat) :
    bitsVal (List.replicate k false) = 0 := by
  induction k with
  | zero => rfl
  | succ m ih =>
    rw [List.replicate_succ, bitsVal_cons, ih]
    simp [bitVal]

theorem natToBits_writePixel (n v : Nat) (s : List Bool) (h : s.length ≤ n) :
    natToBits n (writePixel n v s) = s ++ List.replicate (n - s.length) false := by
  unfold writePixel
  rw [← natToBits_mod]
  have hx : bitsVal s * 2 ^ (n - s.length) < 2 ^ n := by
    have h1 := bitsVal_lt s
    have h2 : (2:Nat) ^ s.length * 2 ^ (n - s.length) = 2 ^ n := by
      rw [← pow_add]
      congr 1
      omega
    rw [← h2]
    exact mul_lt_mul_of_pos_right h1 (by positivity)
  have hmod : (v / 2 ^ n * 2 ^ n + bitsVal s * 2 ^ (n - s.length)) % 2 ^ n
      = bitsVal s * 2 ^ (n - s.length) := by
    rw [mul_comm (v / 2 ^ n), Nat.mul_add_mod, Nat.mod_eq_of_lt hx]
  rw [hmod]
  have hbv : bitsVal s * 2 ^ (n - s.length)
      = bitsVal (s ++ List.replicate (n - s.length) false) := by
    rw [bitsVal_append, bitsVal_replicate_false, List.length_replicate,
      Nat.add_zero]
  rw [hbv]
  have hlen2 : (s ++ List.replicate (n - s.length) false).length = n := by
    simp only [List.length_append, List.length_replicate]
    omega
  set t := s ++ List.replicate (n - s.length) false with ht
  rw [← hlen2]
  exact natToBits_bitsVal t

theorem updPx_self (px : Px) (k : Fin 3) (v : Nat) : updPx px k v k = v := by
  simp [updPx]

theorem updPx_ne (px : Px) (k : Fin 3) (v : Nat) (k' : Fin 3) (h : ¬(k' = k)) :
    updPx px k v k' = px k' := by
  simp [updPx, h]

/-! ### Lemmas: the pixel channel loops -/

theorem embedPxChans_cons_break (n : Nat) (bits : List Bool) (k : Fin 3)
    (rest : List (Fin 3)) (px : Px) (cur : Nat) (h : bits.length ≤ cur + n) :
    embedPxChans n bits (k :: rest) px cur
      = (updPx px k (writePixel n (px k) ((bits.drop cur).take n)), cur + n, true) := by
  simp [embedPxChans, h]

theorem embedPxChans_cons_go (n : Nat) (bits : List Bool) (k : Fin 3)
    (rest : List (Fin 3)) (px : Px) (cur : Nat) (h : ¬(bits.length ≤ cur + n)) :
    embedPxChans n bits (k :: rest) px cur
      = embedPxChans n bits rest
          (updPx px k (writePixel n (px k) ((bits.drop cur).take n))) (cur + n) := by
  simp [embedPxChans, h]

theorem extractPxChans_cons (n : Nat) (k : Fin 3) (rest : List (Fin 3)) (px : Px)
    (ds : Int) (acc : List Bool) :
    extractPxChans n (k :: rest) px ds acc
      = if ds - (n : Int) ≤ 0 then (ds - (n : Int), acc ++ natToBits n (px k))
        else extractPxChans n rest px (ds - (n : Int)) (acc ++ natToBits n (px k)) := by
  rfl

theorem embedPxChans_untouched (n : Nat) (bits : List Bool) :
    ∀ (ks : List (Fin 3)) (px : Px) (cur : Nat) (k : Fin 3), k ∉ ks →
    (embedPxChans n bits ks px cur).1 k = px k := by
  intro ks
  induction ks with
  | nil => intro px cur k _; rfl
  | cons k0 rest ih =>
    intro px cur k hk
    have hne : ¬(k = k0) := fun he => hk (by rw [he]; exact List.mem_cons_self _ _)
    have hrest : k ∉ rest := fun hm => hk (List.mem_cons_of_mem _ hm)
    by_cases hbr : bits.length ≤ cur + n
    · rw [embedPxChans_cons_break _ _ _ _ _ _ hbr]
      exact updPx_ne _ _ _ _ hne
    · rw [embedPxChans_cons_go _ _ _ _ _ _ hbr]
      rw [ih _ _ k hrest]
      exact updPx_ne _ _ _ _ hne

theorem pngJointChans (n : Nat) (bits : List Bool) : ∀ (ks : List (Fin 3)),
    ks.Nodup → ∀ (px : Px) (cur : Nat) (acc : List Bool),
    cur < bits.length →
    extractPxChans n ks (embedPxChans n bits ks px cur).1
        ((bits.length : Int) - (cur : Int)) acc
      = ((bits.length : Int) - ((embedPxChans n bits ks px cur).2.1 : Int),
         acc ++ (bits.drop cur).take ((embedPxChans n bits ks px cur).2.1 - cur)
           ++ List.replicate ((embedPxChans n bits ks px cur).2.1 - bits.length)
               false)
    ∧ (embedPxChans n bits ks px cur).2.2
        = decide (bits.length ≤ (embedPxChans n bits ks px cur).2.1)
    ∧ ((embedPxChans n bits ks px cur).2.2 = false →
        (embedPxChans n bits ks px cur).2.1 = cur + n * ks.length)
    ∧ (embedPxChans n bits ks px cur).2.1 < bits.length + n
    ∧ cur ≤ (embedPxChans n bits ks px cur).2.1 := by
  intro ks
  induction ks with
  | nil =>
    intro _ px cur acc hcur
    simp only [embedPxChans, extractPxChans]
    refine ⟨?_, ?_, by intro _; simp, by omega, le_refl _⟩
    · rw [show cur - cur = 0 from by omega,
        show cur - bits.length = 0 from by omega]
      simp
    · rw [decide_eq_false (by omega : ¬(bits.length ≤ cur))]
  | cons k0 rest ih =>
    intro hnd px cur acc hcur
    obtain ⟨hk0, hndr⟩ := List.nodup_cons.mp hnd
    have hslice : ((bits.drop cur).take n).length = min n (bits.length - cur) := by
      simp [List.length_take, List.length_drop]
    by_cases hbr : bits.length ≤ cur + n
    · rw [embedPxChans_cons_break _ _ _ _ _ _ hbr]
      dsimp only
      refine ⟨?_, ?_, by intro h; exact absurd h (by simp), by omega, by omega⟩
      · rw [extractPxChans_cons,
          if_pos (by push_cast; omega :
            (bits.length : Int) - (cur : Int) - (n : Int) ≤ 0),
          updPx_self, natToBits_writePixel _ _ _ (by omega)]
        simp only [Prod.mk.injEq]
        refine ⟨by push_cast; ring, ?_⟩
        rw [show cur + n - cur = n from by omega, List.append_assoc,
          show n - ((bits.drop cur).take n).length = cur + n - bits.length from by
            omega]
      · rw [decide_eq_true hbr]
    · rw [embedPxChans_cons_go _ _ _ _ _ _ hbr]
      have hcur2 : cur + n < bits.length := by omega
      have hslicen : ((bits.drop cur).take n).length = n := by omega
      obtain ⟨ihext, ihflag, ihfalse, ihlt, ihle⟩ :=
        ih hndr (updPx px k0 (writePixel n (px k0) ((bits.drop cur).take n)))
          (cur + n)
          (acc ++ natToBits n (writePixel n (px k0) ((bits.drop cur).take n)))
          hcur2
    
      have hread : (embedPxChans n bits rest
          (updPx px k0 (writePixel n (px k0) ((bits.drop cur).take n)))
          (cur + n)).1 k0
          = writePixel n (px k0) ((bits.drop cur).take n) := by
        rw [embedPxChans_untouched n bits rest _ _ k0 hk0, updPx_self]
      refine ⟨?_, ihflag, ?_, ihlt, by omega⟩
      · rw [extractPxChans_cons, hread,
          if_neg (by push_cast; omega :
            ¬((bits.length : Int) - (cur : Int) - (n : Int) ≤ 0)),
          show (bits.length : Int) - (cur : Int) - (n : Int)
            = (bits.length : Int) - ((cur + n : Nat) : Int) from by push_cast; ring,
          ihext]
        simp only [Prod.mk.injEq]
        refine ⟨by first | trivial | (push_cast; ring), ?_⟩
        have hcomb : (bits.drop cur).take n
            ++ (bits.drop (cur + n)).take
                ((embedPxChans n bits rest
                  (updPx px k0 (writePixel n (px k0) ((bits.drop cur).take n)))
                  (cur + n)).2.1 - (cur + n))
            = (bits.drop cur).take
                ((embedPxChans n bits rest
                  (updPx px k0 (writePixel n (px k0) ((bits.drop cur).take n)))
                  (cur + n)).2.1 - cur) := by
          rw [show (embedPxChans n bits rest
              (updPx px k0 (writePixel n (px k0) ((bits.drop cur).take n)))
              (cur + n)).2.1 - cur
            = n + ((embedPxChans n bits rest
                (updPx px k0 (writePixel n (px k0) ((bits.drop cur).take n)))
                (cur + n)).2.1 - (cur + n)) from by omega,
            List.take_add]
          congr 1
          rw [List.drop_drop]
        rw [natToBits_writePixel _ _ _ (by omega), hslicen,
          show n - n = 0 from by omega, List.replicate_zero, List.append_nil]
        simp only [List.append_assoc]
        rw [← List.append_assoc ((bits.drop cur).take n), hcomb]
      · intro hf
        rw [ihfalse hf, List.length_cons]
        ring_nf

theorem embedPngPixels_cons_true (n : Nat) (bits : List Bool) (px : Px)
    (rest : List Px) (cur : Nat) (px1 : Px) (cur1 : Nat)
    (hE : embedPxChans n bits (List.finRange 3) px cur = (px1, cur1, true)) :
    embedPngPixels n bits (px :: rest) cur = (px1 :: rest, cur1, true) := by
  simp [embedPngPixels, hE]

theorem embedPngPixels_cons_false (n : Nat) (bits : List Bool) (px : Px)
    (rest : List Px) (cur : Nat) (px1 : Px) (cur1 : Nat)
    (hE : embedPxChans n bits (List.finRange 3) px cur = (px1, cur1, false)) :
    embedPngPixels n bits (px :: rest) cur
      = (px1 :: (embedPngPixels n bits rest cur1).1,
         (embedPngPixels n bits rest cur1).2.1,
         (embedPngPixels n bits rest cur1).2.2) := by
  simp [embedPngPixels, hE]

theorem extractPngPixels_cons (n : Nat) (px : Px) (rest : List Px) (ds : Int)
    (acc : List Bool) :
    extractPngPixels n (px :: rest) ds acc
      = if (extractPxChans n (List.finRange 3) px ds acc).1 ≤ 0
        then extractPxChans n (List.finRange 3) px ds acc
        else extractPngPixels n rest (extractPxChans n (List.finRange 3) px ds acc).1
          (extractPxChans n (List.finRange 3) px ds acc).2 := rfl

theorem pngJointPixels (n : Nat) (bits : List Bool) : ∀ (pxs : List Px)
    (cur : Nat) (acc : List Bool), cur < bits.length →
    extractPngPixels n (embedPngPixels n bits pxs cur).1
        ((bits.length : Int) - (cur : Int)) acc
      = ((bits.length : Int) - ((embedPngPixels n bits pxs cur).2.1 : Int),
         acc ++ (bits.drop cur).take ((embedPngPixels n bits pxs cur).2.1 - cur)
           ++ List.replicate ((embedPngPixels n bits pxs cur).2.1 - bits.length)
               false)
    ∧ (embedPngPixels n bits pxs cur).2.2
        = decide (bits.length ≤ (embedPngPixels n bits pxs cur).2.1)
    ∧ ((embedPngPixels n bits pxs cur).2.2 = false →
        (embedPngPixels n bits pxs cur).2.1 = cur + n * (3 * pxs.length))
    ∧ (embedPngPixels n bits pxs cur).2.1 < bits.length + n
    ∧ cur ≤ (embedPngPixels n bits pxs cur).2.1 := by
  intro pxs
  induction pxs with
  | nil =>
    intro cur acc hcur
    simp only [embedPngPixels, extractPngPixels]
    refine ⟨?_, ?_, by intro _; simp, by omega, le_refl _⟩
    · rw [show cur - cur = 0 from by omega,
        show cur - bits.length = 0 from by omega]
      simp
    · rw [decide_eq_false (by omega : ¬(bits.length ≤ cur))]
  | cons px rest ih =>
    intro cur acc hcur
    have hch := pngJointChans n bits (List.finRange 3) (List.nodup_finRange 3)
      px cur acc hcur
    rcases hE : embedPxChans n bits (List.finRange 3) px cur with ⟨px1, r1⟩
    rcases r1 with ⟨cur1, f1⟩
    rw [hE] at hch
    dsimp only at hch
    obtain ⟨hext, hflag, hfalse, hlt, hle⟩ := hch
    cases f1 with
    | true =>
      rw [embedPngPixels_cons_true n bits px rest cur px1 cur1 hE]
      dsimp only
      have hlen1 : bits.length ≤ cur1 := by
        have h2 := hflag.symm
        rw [decide_eq_true_eq] at h2
        exact h2
      refine ⟨?_, hflag, by intro h; exact absurd h (by simp), hlt, hle⟩
      rw [extractPngPixels_cons, hext]
      rw [if_pos (by push_cast; omega : (bits.length : Int) - (cur1 : Int) ≤ 0)]
    | false =>
      rw [embedPngPixels_cons_false n bits px rest cur px1 cur1 hE]
      dsimp only
      have hlen1 : cur1 < bits.length := by
        have h2 := hflag.symm
        rw [decide_eq_false_iff_not] at h2
        omega
      have h3 : cur1 = cur + n * 3 := by
        have := hfalse rfl
        rw [List.length_finRange] at this
        exact this
      obtain ⟨ihext, ihflag, ihfalse, ihlt, ihle⟩ :=
        ih cur1 (acc ++ (bits.drop cur).take (cur1 - cur)) hlen1
      refine ⟨?_, ihflag, ?_, ihlt, by omega⟩
      · rw [extractPngPixels_cons, hext]
        rw [if_neg (by push_cast; omega :
          ¬((bits.length : Int) - (cur1 : Int) ≤ 0))]
        rw [show cur1 - bits.length = 0 from by omega, List.replicate_zero,
          List.append_nil]
        rw [ihext]
        simp only [Prod.mk.injEq]
        refine ⟨trivial, ?_⟩
        have hdd : (bits.drop cur).drop (cur1 - cur) = bits.drop cur1 := by
          rw [List.drop_drop]
          congr 1
          omega
        have hcomb : (bits.drop cur).take (cur1 - cur)
            ++ (bits.drop cur1).take ((embedPngPixels n bits rest cur1).2.1 - cur1)
            = (bits.drop cur).take ((embedPngPixels n bits rest cur1).2.1 - cur) := by
          rw [show (embedPngPixels n bits rest cur1).2.1 - cur
            = (cur1 - cur) + ((embedPngPixels n bits rest cur1).2.1 - cur1) from by
              omega,
            List.take_add, hdd]
        simp only [List.append_assoc]
        rw [← List.append_assoc ((bits.drop cur).take (cur1 - cur)), hcomb]
      · intro hf
        rw [ihfalse hf, h3, List.length_cons]
        ring_nf

theorem png_capacity_le (img : PngImage) :
    8 * img.storage_capacity
      ≤ 3 * img.data.length * img.number_of_least_significant_bits := by
  have h := Nat.div_mul_le_self
    (3 * img.data.length * img.number_of_least_significant_bits) 8
  unfold PngImage.storage_capacity
  omega

theorem png_roundtrip (img : PngImage) (data : List Nat)
    (hbytes : ∀ b ∈ data, b < 256)
    (hn1 : 1 ≤ img.number_of_least_significant_bits)
    (hn4 : img.number_of_least_significant_bits ≤ 4)
    (hlen : 1 ≤ data.length) (hcap : data.length ≤ img.storage_capacity) :
    ∃ S, (img.embed_data data).1 = .ok S ∧ S.extract = .ok (data, 0) := by
  have hL : (bytesToBits data).length = 8 * data.length := length_bytesToBits data
  have hT : 8 * data.length
      ≤ 3 * img.data.length * img.number_of_least_significant_bits := by
    have h := png_capacity_le img
    omega
  have hL1 : 0 < (bytesToBits data).length := by omega
  unfold PngImage.embed_data
  rw [if_neg (by omega : ¬(data.length > img.storage_capacity))]
  dsimp only
  refine ⟨_, rfl, ?_⟩
  unfold StegPngImage.extract
  dsimp only
  rw [parse_mkMetadata (8 * data.length) img.number_of_least_significant_bits 5
    (by omega) (by omega) (by omega)]
  dsimp only
  obtain ⟨hext, hflag, hfalse, hlt, hle⟩ :=
    pngJointPixels img.number_of_least_significant_bits (bytesToBits data)
      img.data 0 [] hL1
  have hmul : img.number_of_least_significant_bits * (3 * img.data.length)
      = 3 * img.data.length * img.number_of_least_significant_bits := by ring
  have hfin : (bytesToBits data).length
      ≤ (embedPngPixels img.number_of_least_significant_bits (bytesToBits data)
          img.data 0).2.1 := by
    cases hff : (embedPngPixels img.number_of_least_significant_bits
        (bytesToBits data) img.data 0).2.2 with
    | true =>
      rw [hff] at hflag
      exact of_decide_eq_true hflag.symm
    | false =>
      have h1 := hfalse hff
      rw [hff] at hflag
      have h2 := of_decide_eq_false hflag.symm
      omega
  rw [show ((8 * data.length : Nat) : Int)
      = ((bytesToBits data).length : Int) - ((0 : Nat) : Int) from by
      rw [hL]; push_cast; ring]
  rw [hext]
  dsimp only
  rw [if_neg (by push_cast; omega :
    ¬(0 < ((bytesToBits data).length : Int)
      - ((embedPngPixels img.number_of_least_significant_bits (bytesToBits data)
          img.data 0).2.1 : Int)))]
  rw [List.nil_append, List.drop_zero, Nat.sub_zero,
    List.take_of_length_le (show (bytesToBits data).length
      ≤ (embedPngPixels img.number_of_least_significant_bits (bytesToBits data)
          img.data 0).2.1 from by omega)]
  have hlist : (bytesToBits data
      ++ List.replicate ((embedPngPixels img.number_of_least_significant_bits
          (bytesToBits data) img.data 0).2.1 - (bytesToBits data).length)
        false).length
      = (bytesToBits data).length
        + ((embedPngPixels img.number_of_least_significant_bits (bytesToBits data)
            img.data 0).2.1 - (bytesToBits data).length) := by
    simp [List.length_append, List.length_replicate]
  rw [hlist]
  have hpadlt : (embedPngPixels img.number_of_least_significant_bits
      (bytesToBits data) img.data 0).2.1 - (bytesToBits data).length < 8 := by
    omega
  have hmod : ((bytesToBits data).length
      + ((embedPngPixels img.number_of_least_significant_bits (bytesToBits data)
          img.data 0).2.1 - (bytesToBits data).length)) % 8
      = (embedPngPixels img.number_of_least_significant_bits (bytesToBits data)
          img.data 0).2.1 - (bytesToBits data).length := by
    omega
  rw [hmod, show (bytesToBits data).length
      + ((embedPngPixels img.number_of_least_significant_bits (bytesToBits data)
          img.data 0).2.1 - (bytesToBits data).length)
      - ((embedPngPixels img.number_of_least_significant_bits (bytesToBits data)
          img.data 0).2.1 - (bytesToBits data).length)
      = (bytesToBits data).length from by omega]
  rw [List.take_left, bitsToBytes_bytesToBits data hbytes]

/-! ### Lemmas: truncated extraction (pixel) -/

theorem extractPxChans_all (n : Nat) (px : Px) (ds : Int) (acc : List Bool)
    (h : (3 * n : Int) < ds) :
    extractPxChans n (List.finRange 3) px ds acc
      = (ds - 3 * n,
         acc ++ (natToBits n (px 0) ++ natToBits n (px 1) ++ natToBits n (px 2))) := by
  have h3 : (List.finRange 3) = [(0 : Fin 3), 1, 2] := by decide
  have hn : (0 : Int) ≤ (n : Int) := by positivity
  rw [h3, extractPxChans_cons, if_neg (by omega), extractPxChans_cons,
    if_neg (by omega), extractPxChans_cons, if_neg (by omega)]
  simp only [extractPxChans]
  simp only [Prod.mk.injEq]
  constructor
  · ring
  · simp [List.append_assoc]

theorem extractPngPixels_all (n : Nat) : ∀ (pxs : List Px) (ds : Int)
    (acc : List Bool), (3 * pxs.length * n : Int) < ds →
    extractPngPixels n pxs ds acc
      = (ds - 3 * pxs.length * n,
         acc ++ pxs.flatMap fun px =>
           natToBits n (px 0) ++ natToBits n (px 1) ++ natToBits n (px 2)) := by
  intro pxs
  induction pxs with
  | nil =>
    intro ds acc h
    simp only [extractPngPixels, List.flatMap_nil, List.append_nil,
      List.length_nil]
    norm_num
  | cons px rest ih =>
    intro ds acc h
    have hlen : ((px :: rest).length : Int) = (rest.length : Int) + 1 := by
      push_cast [List.length_cons]
      ring
    have h1 : (3 * n : Int) < ds := by
      have hr : (0:Int) ≤ 3 * (rest.length : Int) * n := by positivity
      rw [show (3 * (px :: rest).length * n : Int)
        = 3 * (rest.length : Int) * n + 3 * n from by rw [hlen]; ring] at h
      omega
    rw [extractPngPixels_cons, extractPxChans_all n px ds acc h1]
    dsimp only
    have h2 : (3 * rest.length * n : Int) < ds - 3 * n := by
      rw [show (3 * (px :: rest).length * n : Int)
        = 3 * (rest.length : Int) * n + 3 * n from by rw [hlen]; ring] at h
      omega
    rw [if_neg (by
      have hr : (0:Int) ≤ 3 * (rest.length : Int) * n := by positivity
      omega), ih (ds - 3 * n) _ h2]
    simp only [Prod.mk.injEq]
    constructor
    · rw [show (3 * (px :: rest).length * n : Int)
        = 3 * (rest.length : Int) * n + 3 * n from by rw [hlen]; ring]
      ring
    · rw [List.flatMap_cons, List.append_assoc]

/-! ### Lemmas: embed failure modes -/

theorem embed_data_not_capacity (img : JpegImage) (data : List Nat)
    (h : data.length ≤ img.storage_capacity) :
    (img.embed_data data).1 ≠ .error .capacityExceeded := by
  unfold JpegImage.embed_data
  rw [if_neg (by omega : ¬(data.length > img.storage_capacity))]
  dsimp only
  repeat' split
  all_goals simp

theorem embed_data_capacity (img : JpegImage) (data : List Nat)
    (h : data.length > img.storage_capacity) :
    img.embed_data data = (.error .capacityExceeded, img) := by
  unfold JpegImage.embed_data
  rw [if_pos h]

theorem png_embed_data_capacity (img : PngImage) (data : List Nat)
    (h : data.length > img.storage_capacity) :
    img.embed_data data = (.error .capacityExceeded, img) := by
  unfold PngImage.embed_data
  rw [if_pos h]

theorem png_embed_data_ok (img : PngImage) (data : List Nat)
    (h : data.length ≤ img.storage_capacity) :
    (img.embed_data data).1
      = .ok ⟨(embedPngPixels img.number_of_least_significant_bits
            (bytesToBits data) img.data 0).1,
          some (mkMetadata (8 * data.length)
            img.number_of_least_significant_bits)⟩ := by
  unfold PngImage.embed_data
  rw [if_neg (by omega : ¬(data.length > img.storage_capacity))]

/-! ### Lemmas: eligibility preservation at image level -/

theorem embed_data_mask (img : JpegImage) (data : List Nat) (S : StegJpegImage)
    (h : (img.embed_data data).1 = .ok S) :
    chanEligMask img.perceptibility S.Y = chanEligMask img.perceptibility img.Y
    ∧ chanEligMask img.perceptibility S.Cr = chanEligMask img.perceptibility img.Cr
    ∧ chanEligMask img.perceptibility S.Cb
        = chanEligMask img.perceptibility img.Cb := by
  unfold JpegImage.embed_data at h
  by_cases hc : data.length > img.storage_capacity
  · rw [if_pos hc] at h
    exact absurd h (by simp)
  · rw [if_neg hc] at h
    dsimp only at h
    cases h1 : embedChan img.perceptibility (bytesToBits data) img.Y 0 with
    | none => rw [h1] at h; exact absurd h (by simp)
    | some r1 =>
      obtain ⟨y', i1, f1⟩ := r1
      rw [h1] at h
      dsimp only at h
      obtain ⟨hm1, -⟩ := embedChan_some_mask _ _ _ _ _ _ _ h1
      by_cases hif1 : i1 = (bytesToBits data).length
      · rw [if_pos hif1] at h
        simp only [Except.ok.injEq] at h
        subst h
        exact ⟨hm1, rfl, rfl⟩
      · rw [if_neg hif1] at h
        cases h2 : embedChan img.perceptibility (bytesToBits data) img.Cr i1 with
        | none => rw [h2] at h; exact absurd h (by simp)
        | some r2 =>
          obtain ⟨cr', i2, f2⟩ := r2
          rw [h2] at h
          dsimp only at h
          obtain ⟨hm2, -⟩ := embedChan_some_mask _ _ _ _ _ _ _ h2
          by_cases hif2 : i2 = (bytesToBits data).length
          · rw [if_pos hif2] at h
            simp only [Except.ok.injEq] at h
            subst h
            exact ⟨hm1, hm2, rfl⟩
          · rw [if_neg hif2] at h
            cases h3 : embedChan img.perceptibility (bytesToBits data) img.Cb i2 with
            | none => rw [h3] at h; exact absurd h (by simp)
            | some r3 =>
              obtain ⟨cb', i3, f3⟩ := r3
              rw [h3] at h
              dsimp only at h
              obtain ⟨hm3, -⟩ := embedChan_some_mask _ _ _ _ _ _ _ h3
              simp only [Except.ok.injEq] at h
              subst h
              exact ⟨hm1, hm2, hm3⟩

/-! ### Lemmas: the malformedness characterisation of the parser -/

theorem parse_error_iff (md : Option (List Char)) (lo hi : Int) :
    extract_parameters_from_metadata md lo hi = .error .malformed
      ↔ claimMalformed md lo hi := by
  constructor
  · intro h
    unfold claimMalformed
    cases md with
    | none => exact Or.inl rfl
    | some s =>
      by_cases hs : s = []
      · subst hs
        exact Or.inr (Or.inl rfl)
      · refine Or.inr (Or.inr ⟨s, rfl, ?_⟩)
        simp only [extract_parameters_from_metadata] at h
        rw [if_neg hs] at h
        rcases hsp : splitDash s with _ | ⟨f1, _ | ⟨f2, _ | _⟩⟩
        · left; simp
        · left; simp
        · rw [hsp] at h
          dsimp only at h
          right
          refine ⟨f1, f2, rfl, ?_⟩
          cases hp1 : parseInt f1 with
          | none => exact Or.inl rfl
          | some d =>
            rw [hp1] at h
            dsimp only at h
            by_cases hd : d < 1
            · exact Or.inr (Or.inr (Or.inl ⟨d, rfl, hd⟩))
            · rw [if_neg hd] at h
              cases hp2 : parseInt f2 with
              | none => exact Or.inr (Or.inl rfl)
              | some q =>
                rw [hp2] at h
                dsimp only at h
                by_cases hq : lo ≤ q ∧ q < hi
                · rw [if_pos hq] at h
                  exact absurd h (by simp)
                · exact Or.inr (Or.inr (Or.inr ⟨q, rfl, by omega⟩))
        · left; simp
  · intro hcm
    unfold claimMalformed at hcm
    rcases hcm with h | h | ⟨s, hmd, hP⟩
    · subst h; rfl
    · subst h; rfl
    · subst hmd
      simp only [extract_parameters_from_metadata]
      by_cases hs : s = []
      · rw [if_pos hs]
      · rw [if_neg hs]
        rcases hP with hlen | ⟨f1, f2, hsp, hQ⟩
        · rcases hsp2 : splitDash s with _ | ⟨g1, _ | ⟨g2, _ | _⟩⟩
          · rfl
          · rfl
          · rw [hsp2] at hlen; simp at hlen
          · rfl
        · rw [hsp]
          dsimp only
          rcases hQ with h1 | h2 | ⟨d, hd1, hd2⟩ | ⟨q, hq1, hq2⟩
          · rw [h1]
          · cases hp1 : parseInt f1 with
            | none => rfl
            | some d =>
              dsimp only
              by_cases hd : d < 1
              · rw [if_pos hd]
              · rw [if_neg hd, h2]
          · rw [hd1]
            dsimp only
            rw [if_pos hd2]
          · cases hp1 : parseInt f1 with
            | none => rfl
            | some d =>
              dsimp only
              by_cases hd : d < 1
              · rw [if_pos hd]
              · rw [if_neg hd, hq1]
                dsimp only
                rw [if_neg (by omega : ¬(lo ≤ q ∧ q < hi))]

theorem extract_error_dct (Y Cr Cb Ya Cra Cba : Chan) (md : Option (List Char))
    (h : extract_parameters_from_metadata md 1 9 = .error .malformed) :
    StegJpegImage.extract ⟨Y, Cr, Cb, md⟩ = .error .malformed
    ∧ StegJpegImage.extract ⟨Y, Cr, Cb, md⟩
        = StegJpegImage.extract ⟨Ya, Cra, Cba, md⟩ := by
  unfold StegJpegImage.extract
  dsimp only
  rw [h]
  exact ⟨rfl, rfl⟩

theorem extract_error_png (d da : List Px) (md : Option (List Char))
    (h : extract_parameters_from_metadata md 1 5 = .error .malformed) :
    StegPngImage.extract ⟨d, md⟩ = .error .malformed
    ∧ StegPngImage.extract ⟨d, md⟩ = StegPngImage.extract ⟨da, md⟩ := by
  unfold StegPngImage.extract
  dsimp only
  rw [h]
  exact ⟨rfl, rfl⟩

/-! ### Lemmas: capacity monotonicity and the finished flag -/

theorem valsAt_sublist {p q : Nat} (h : p ≤ q) (bl : Block) :
    List.Sublist (valsAt (posList p) bl) (valsAt (posList q) bl) :=
  List.Sublist.filterMap _ (posList_sublist h)

theorem numAvail_mono {p q : Nat} (h : p ≤ q) (c : Chan) :
    numAvail p c ≤ numAvail q c := by
  induction c with
  | nil => simp [numAvail, chanEligVals]
  | cons bl rest ih =>
    rw [numAvail_cons, numAvail_cons]
    exact Nat.add_le_add (valsAt_sublist h bl).length_le ih

theorem embedPng_finished (n : Nat) (bits : List Bool) (pxs : List Px)
    (h1 : 0 < bits.length) (h2 : bits.length ≤ 3 * pxs.length * n) :
    (embedPngPixels n bits pxs 0).2.2 = true := by
  obtain ⟨-, hflag, hfalse, -, -⟩ := pngJointPixels n bits pxs 0 [] h1
  cases hff : (embedPngPixels n bits pxs 0).2.2
  · have h3 := hfalse hff
    rw [hff] at hflag
    have h4 := of_decide_eq_false hflag.symm
    have hmul : n * (3 * pxs.length) = 3 * pxs.length * n := by ring
    omega
  · rfl

theorem length_pngBits (n : Nat) (pxs : List Px) :
    (pxs.flatMap fun px =>
        natToBits n (px 0) ++ natToBits n (px 1) ++ natToBits n (px 2)).length
      = 3 * pxs.length * n := by
  induction pxs with
  | nil => simp
  | cons px rest ih =>
    simp only [List.flatMap_cons, List.length_append, length_natToBits, ih,
      List.length_cons]
    ring

/-! ### The claims -/

/-- C1 (amended): the round trip holds for every *nonempty* payload.
For both carrier kinds, every valid parameter (perceptibility 1..8 for
DCT, bits per channel 1..4 for pixel) and every byte payload with
`1 ≤ len(payload) ≤ capacity`, embedding succeeds and extracting from
the produced stego carrier returns exactly the original bytes with no
missing bits.  (The claim as frozen also covers the empty payload; that
case is refuted by `c1_empty_payload_cex`.) -/
theorem c1_round_trip :
    (∀ (img : JpegImage) (data : List Nat), (∀ b ∈ data, b < 256) →
        1 ≤ img.perceptibility → img.perceptibility ≤ 8 →
        1 ≤ data.length → data.length ≤ img.storage_capacity →
        ∃ S, (img.embed_data data).1 = .ok S ∧ S.extract = .ok (data, 0))
    ∧ (∀ (img : PngImage) (data : List Nat), (∀ b ∈ data, b < 256) →
        1 ≤ img.number_of_least_significant_bits →
        img.number_of_least_significant_bits ≤ 4 →
        1 ≤ data.length → data.length ≤ img.storage_capacity →
        ∃ S, (img.embed_data data).1 = .ok S ∧ S.extract = .ok (data, 0)) :=
  ⟨fun img data hb h1 h2 h3 h4 => dct_roundtrip img data hb h1 h2 h3 h4,
   fun img data hb h1 h2 h3 h4 => png_roundtrip img data hb h1 h2 h3 h4⟩

/-- Witness for C1: the round trip at the concrete carriers `wJpeg`
(payload "hi") and `wPng` (payload [104]). -/
theorem c1_round_trip_witness :
    (∃ S, (wJpeg.embed_data [104, 105]).1 = .ok S ∧ S.extract = .ok ([104, 105], 0))
    ∧ (∃ S, (wPng.embed_data [104]).1 = .ok S ∧ S.extract = .ok ([104], 0)) :=
  ⟨c1_round_trip.1 wJpeg [104, 105] (by decide) (by decide) (by decide)
      (by decide) (by decide),
   c1_round_trip.2 wPng [104] (by decide) (by decide) (by decide)
      (by decide) (by decide)⟩

/-- Counterexample to C1 as frozen: the empty payload has length
`0 ≤ capacity` for every carrier, yet on the pixel carrier `tinyPng`
embedding succeeds and the subsequent extraction fails with
`MalformedMetadata` (the stored `payload_bit_length` 0 is rejected by
`payload_bit_length < 1`), so it does not return the original payload. -/
theorem c1_empty_payload_cex :
    ([] : List Nat).length ≤ tinyPng.storage_capacity
    ∧ (tinyPng.embed_data []).1.map StegPngImage.extract = .ok (.error .malformed)
    ∧ ¬((tinyPng.embed_data []).1.map StegPngImage.extract = .ok (.ok ([], 0))) := by
  have hm : extract_parameters_from_metadata (some (mkMetadata 0 1)) 1 5
      = .error .malformed := by
    rw [parse_error_iff]
    exact Or.inr (Or.inr ⟨mkMetadata 0 1, rfl,
      Or.inr ⟨natDigits 0, natDigits 1, splitDash_mkMetadata 0 1,
        Or.inr (Or.inr (Or.inl ⟨0, parseInt_natDigits 0, by norm_num⟩))⟩⟩)
  have hembed : (tinyPng.embed_data []).1
      = .ok ⟨(embedPngPixels 1 [] [wPx] 0).1, some (mkMetadata 0 1)⟩ :=
    png_embed_data_ok tinyPng [] (by decide)
  have hext : StegPngImage.extract
      ⟨(embedPngPixels 1 [] [wPx] 0).1, some (mkMetadata 0 1)⟩ = .error .malformed :=
    (extract_error_png (embedPngPixels 1 [] [wPx] 0).1 [] (some (mkMetadata 0 1)) hm).1
  refine ⟨by decide, ?_, fun h => ?_⟩
  · rw [hembed]
    exact congrArg Except.ok hext
  · rw [hembed] at h
    simp only [Except.map] at h
    rw [hext] at h
    exact absurd h (by simp)

/-- C2 (amended): embedding fails with `CapacityExceeded` exactly when
`len(payload) > capacity_bytes`; a payload of exactly `capacity_bytes`
succeeds for the pixel carrier always, and for the DCT carrier whenever
the payload is nonempty.  (The frozen claim's unconditional success at
`len = capacity` is refuted by `c2_empty_at_capacity_cex`: the DCT
embedder hits an uncaught IndexError on the empty payload.) -/
theorem c2_capacity_boundary :
    (∀ (img : JpegImage) (data : List Nat),
        ((img.embed_data data).1 = .error .capacityExceeded
          ↔ img.storage_capacity < data.length)
        ∧ (1 ≤ data.length → data.length = img.storage_capacity →
            ∃ S, (img.embed_data data).1 = .ok S))
    ∧ (∀ (img : PngImage) (data : List Nat),
        ((img.embed_data data).1 = .error .capacityExceeded
          ↔ img.storage_capacity < data.length)
        ∧ (data.length = img.storage_capacity →
            ∃ S, (img.embed_data data).1 = .ok S)) := by
  constructor
  · intro img data
    constructor
    · constructor
      · intro h
        by_contra hc
        exact embed_data_not_capacity img data (by omega) h
      · intro h
        rw [embed_data_capacity img data (by omega)]
    · intro h1 h2
      obtain ⟨y', cr', cb', heq, -⟩ := embed_data_ok img data h1 (le_of_eq h2)
      exact ⟨_, by rw [heq]⟩
  · intro img data
    constructor
    · constructor
      · intro h
        by_contra hc
        rw [png_embed_data_ok img data (by omega)] at h
        exact absurd h (by simp)
      · intro h
        rw [png_embed_data_capacity img data (by omega)]
    · intro h
      exact ⟨_, png_embed_data_ok img data (le_of_eq h)⟩

/-- Witness for C2: a full-capacity 18-byte payload on `wJpeg` and a
full-capacity 1-byte payload on `wPng` both embed successfully. -/
theorem c2_capacity_boundary_witness :
    (∃ S, (wJpeg.embed_data (List.replicate 18 65)).1 = .ok S)
    ∧ ∃ S, (wPng.embed_data [7]).1 = .ok S :=
  ⟨(c2_capacity_boundary.1 wJpeg (List.replicate 18 65)).2 (by decide) (by decide),
   (c2_capacity_boundary.2 wPng [7]).2 (by decide)⟩

/-- Counterexample to C2 as frozen: on `tinyJpeg` (capacity 0 bytes, one
eligible Y coefficient) the empty payload has length exactly equal to
the capacity, yet embedding does not succeed: `bit_data[index]` is read
before the termination check, raising an uncaught IndexError. -/
theorem c2_empty_at_capacity_cex :
    ([] : List Nat).length = tinyJpeg.storage_capacity
    ∧ (tinyJpeg.embed_data []).1 = .error .indexError
    ∧ ¬∃ S, (tinyJpeg.embed_data []).1 = .ok S := by
  refine ⟨by decide, rfl, fun ⟨S, hS⟩ => ?_⟩
  rw [show (tinyJpeg.embed_data []).1 = .error .indexError from rfl] at hS
  exact absurd hS (by simp)

/-- C3: metadata parsing fails with `MalformedMetadata` exactly when the
tag-store record is absent, has a field count other than 2, a
non-integer field, or a field outside its valid domain
(`payload_bit_length < 1`, parameter outside `[lo, hi)`; extraction
passes `lo = 1` with `hi = 9` for DCT and `hi = 5` for pixel); and
whenever parsing fails this way, extraction fails identically no matter
what the planes hold — zero plane positions influence the result. -/
theorem c3_malformed_metadata :
    (∀ (md : Option (List Char)) (lo hi : Int),
        extract_parameters_from_metadata md lo hi = .error .malformed
          ↔ claimMalformed md lo hi)
    ∧ (∀ (Y Cr Cb Ya Cra Cba : Chan) (md : Option (List Char)),
        extract_parameters_from_metadata md 1 9 = .error .malformed →
        StegJpegImage.extract ⟨Y, Cr, Cb, md⟩ = .error .malformed
        ∧ StegJpegImage.extract ⟨Y, Cr, Cb, md⟩
            = StegJpegImage.extract ⟨Ya, Cra, Cba, md⟩)
    ∧ (∀ (d da : List Px) (md : Option (List Char)),
        extract_parameters_from_metadata md 1 5 = .error .malformed →
        StegPngImage.extract ⟨d, md⟩ = .error .malformed
        ∧ StegPngImage.extract ⟨d, md⟩ = StegPngImage.extract ⟨da, md⟩) :=
  ⟨parse_error_iff,
   fun Y Cr Cb Ya Cra Cba md h => extract_error_dct Y Cr Cb Ya Cra Cba md h,
   fun d da md h => extract_error_png d da md h⟩

/-- Witness for C3: the non-numeric metadata value "a" makes extraction
fail with `MalformedMetadata` on concrete carriers, independently of the
planes. -/
theorem c3_malformed_metadata_witness :
    (extract_parameters_from_metadata (some ['a']) 1 9 = .error .malformed
      ↔ claimMalformed (some ['a']) 1 9)
    ∧ (StegJpegImage.extract ⟨[wBlock], [], [], some ['a']⟩ = .error .malformed
        ∧ StegJpegImage.extract ⟨[wBlock], [], [], some ['a']⟩
            = StegJpegImage.extract ⟨[], [], [], some ['a']⟩)
    ∧ (StegPngImage.extract ⟨[wPx], some ['a']⟩ = .error .malformed
        ∧ StegPngImage.extract ⟨[wPx], some ['a']⟩
            = StegPngImage.extract ⟨[], some ['a']⟩) :=
  ⟨c3_malformed_metadata.1 (some ['a']) 1 9,
   c3_malformed_metadata.2.1 [wBlock] [] [] [] [] [] (some ['a']) (by rfl),
   c3_malformed_metadata.2.2 [wPx] [] (some ['a']) (by rfl)⟩

/-- C4 (amended): when the eligible positions supply fewer bits than the
stored `payload_bit_length`, extraction does not fail and reports the
exact missing-bit count for both carrier kinds, but the byte counts
differ: the pixel extractor discards the trailing partial byte and
returns `floor(available_bits/8)` bytes, while the DCT extractor
zero-pads the trailing partial byte and returns `ceil(available_bits/8)`
bytes.  (The frozen claim's `floor` for the DCT kind is refuted by
`c4_dct_ceil_cex`.) -/
theorem c4_truncated_extraction :
    (∀ (S : StegJpegImage) (ds p : Nat),
        extract_parameters_from_metadata S.exif 1 9 = .ok (ds, p) →
        dctAvailBits p S < ds →
        ∃ bytes, S.extract = .ok (bytes, ds - dctAvailBits p S)
          ∧ bytes.length = (dctAvailBits p S + 7) / 8)
    ∧ (∀ (S : StegPngImage) (ds n : Nat),
        extract_parameters_from_metadata S.exif 1 5 = .ok (ds, n) →
        3 * S.data.length * n < ds →
        ∃ bytes, S.extract = .ok (bytes, ds - 3 * S.data.length * n)
          ∧ bytes.length = 3 * S.data.length * n / 8) := by
  constructor
  · intro S ds p hpar hlt
    have hds : 1 ≤ ds := (parse_ok_bounds S.exif 1 9 ds p (by norm_num) hpar).1
    have hx := extract_stego S ds p hpar hds
    have hmin : min ds (dctAvailBits p S) = dctAvailBits p S := by omega
    rw [hmin] at hx
    refine ⟨_, hx, ?_⟩
    rw [length_bitsToBytes, List.length_map, List.length_take]
    have hLen : (chanEligVals p S.Y ++ chanEligVals p S.Cr
        ++ chanEligVals p S.Cb).length = dctAvailBits p S := by
      simp only [dctAvailBits, numAvail, List.length_append]
    rw [hLen]
    omega
  · intro S ds n hpar hlt
    have hcast : 3 * (S.data.length : Int) * (n : Int) < (ds : Int) := by
      exact_mod_cast hlt
    have h0 : (0 : Int) < (ds : Int) - 3 * (S.data.length : Int) * (n : Int) := by
      linarith
    have htn : ((ds : Int) - 3 * (S.data.length : Int) * (n : Int)).toNat
        = ds - 3 * S.data.length * n := by
      have h1 : 3 * (S.data.length : Int) * (n : Int)
          = ((3 * S.data.length * n : Nat) : Int) := by push_cast; ring
      rw [h1, ← Nat.cast_sub (le_of_lt hlt), Int.toNat_natCast]
    unfold StegPngImage.extract
    rw [hpar]
    dsimp only
    rw [extractPngPixels_all n S.data (ds : Int) [] hcast]
    dsimp only
    rw [List.nil_append, if_pos h0, htn]
    refine ⟨_, rfl, ?_⟩
    rw [length_bitsToBytes, List.length_take, length_pngBits]
    generalize 3 * S.data.length * n = L
    omega

/-- Witness for C4: the truncated stego carriers `truncJpegStego`
(1 available bit against a stored length of 8) and `truncPngStego`
(6 available bits against a stored length of 100). -/
theorem c4_truncated_extraction_witness :
    (∃ bytes, truncJpegStego.extract
          = .ok (bytes, 8 - dctAvailBits 1 truncJpegStego)
        ∧ bytes.length = (dctAvailBits 1 truncJpegStego + 7) / 8)
    ∧ ∃ bytes, truncPngStego.extract
          = .ok (bytes, 100 - 3 * truncPngStego.data.length * 2)
        ∧ bytes.length = 3 * truncPngStego.data.length * 2 / 8 :=
  ⟨c4_truncated_extraction.1 truncJpegStego 8 1
      (parse_mkMetadata 8 1 9 (by norm_num) (by norm_num) (by norm_num)) (by decide),
   c4_truncated_extraction.2 truncPngStego 100 2
      (parse_mkMetadata 100 2 5 (by norm_num) (by norm_num) (by norm_num)) (by decide)⟩

/-- Counterexample to C4 as frozen: `truncJpegStego` has exactly 1
available bit against a stored `payload_bit_length` of 8, so
`floor(available_bits/8) = 0` bytes; yet the DCT extractor returns one
zero-padded byte. -/
theorem c4_dct_ceil_cex :
    dctAvailBits 1 truncJpegStego = 1
    ∧ truncJpegStego.extract = .ok (bitsToBytes [true], 7)
    ∧ (bitsToBytes [true]).length = 1
    ∧ ¬((bitsToBytes [true]).length = dctAvailBits 1 truncJpegStego / 8) := by
  have havail : dctAvailBits 1 truncJpegStego = 1 := by decide
  have hpar : extract_parameters_from_metadata truncJpegStego.exif 1 9
      = .ok (8, 1) :=
    parse_mkMetadata 8 1 9 (by norm_num) (by norm_num) (by norm_num)
  have hx := extract_stego truncJpegStego 8 1 hpar (by norm_num)
  have hvals : ((chanEligVals 1 truncJpegStego.Y ++ chanEligVals 1 truncJpegStego.Cr
      ++ chanEligVals 1 truncJpegStego.Cb).take 8).map (fun v => v % 2 == 1)
      = [true] := by decide
  rw [hvals, havail] at hx
  refine ⟨havail, ?_, length_bitsToBytes [true], ?_⟩
  · rw [hx]
    norm_num
  · rw [length_bitsToBytes, havail]
    decide

/-- C5: capacity never diverges from embeddability.  For the DCT kind,
`capacity_bytes` is the floored byte count of the very eligible-value
sequence the embedder writes into: a successful embed rewrites exactly
that sequence (`writeVals`, which writes the payload bits in order into
the eligible values and leaves the rest untouched).  For the pixel kind,
`capacity_bytes = image.size * n / 8` counts the channel samples the
embedder overwrites: every payload within capacity fits
(`8 * len ≤ image.size * n`), and a nonempty one makes the embedder
finish with its early-exit flag set, i.e. strictly inside the samples it
scans. -/
theorem c5_capacity_matches_embedder :
    (∀ (img : JpegImage),
        img.storage_capacity
            = (numAvail img.perceptibility img.Y + numAvail img.perceptibility img.Cr
                + numAvail img.perceptibility img.Cb) / 8
        ∧ ∀ data : List Nat, 1 ≤ data.length → data.length ≤ img.storage_capacity →
            ∃ y' cr' cb',
              (img.embed_data data).1 = .ok ⟨y', cr', cb',
                  some (mkMetadata (8 * data.length) img.perceptibility)⟩
              ∧ chanEligVals img.perceptibility y'
                  ++ chanEligVals img.perceptibility cr'
                  ++ chanEligVals img.perceptibility cb'
                = writeVals (bytesToBits data) 0
                    (chanEligVals img.perceptibility img.Y
                      ++ chanEligVals img.perceptibility img.Cr
                      ++ chanEligVals img.perceptibility img.Cb))
    ∧ (∀ (img : PngImage),
        img.storage_capacity
            = 3 * img.data.length * img.number_of_least_significant_bits / 8
        ∧ ∀ data : List Nat, data.length ≤ img.storage_capacity →
            8 * data.length
                ≤ 3 * img.data.length * img.number_of_least_significant_bits
            ∧ (1 ≤ data.length →
                (embedPngPixels img.number_of_least_significant_bits
                    (bytesToBits data) img.data 0).2.2 = true)) := by
  constructor
  · intro img
    refine ⟨rfl, fun data h1 h2 => ?_⟩
    obtain ⟨y', cr', cb', heq, hvals, -⟩ := embed_data_ok img data h1 h2
    exact ⟨y', cr', cb', by rw [heq], hvals⟩
  · intro img
    refine ⟨rfl, fun data h2 => ?_⟩
    have hcap := png_capacity_le img
    refine ⟨by omega, fun h1 => ?_⟩
    apply embedPng_finished
    · rw [length_bytesToBits]; omega
    · rw [length_bytesToBits]; omega

/-- Witness for C5: the DCT statement at `wJpeg` with payload [65] and
the pixel statement at `wPng` with payload [7]. -/
theorem c5_capacity_matches_embedder_witness :
    (∃ y' cr' cb',
        (wJpeg.embed_data [65]).1 = .ok ⟨y', cr', cb',
            some (mkMetadata (8 * ([65] : List Nat).length) wJpeg.perceptibility)⟩
        ∧ chanEligVals wJpeg.perceptibility y'
            ++ chanEligVals wJpeg.perceptibility cr'
            ++ chanEligVals wJpeg.perceptibility cb'
          = writeVals (bytesToBits [65]) 0
              (chanEligVals wJpeg.perceptibility wJpeg.Y
                ++ chanEligVals wJpeg.perceptibility wJpeg.Cr
                ++ chanEligVals wJpeg.perceptibility wJpeg.Cb))
    ∧ (8 * ([7] : List Nat).length
          ≤ 3 * wPng.data.length * wPng.number_of_least_significant_bits
        ∧ (embedPngPixels wPng.number_of_least_significant_bits
            (bytesToBits [7]) wPng.data 0).2.2 = true) :=
  ⟨(c5_capacity_matches_embedder.1 wJpeg).2 [65] (by decide) (by decide),
   ⟨((c5_capacity_matches_embedder.2 wPng).2 [7] (by decide)).1,
    ((c5_capacity_matches_embedder.2 wPng).2 [7] (by decide)).2 (by decide)⟩⟩

/-- C6: for a fixed DCT carrier the storage capacity is non-decreasing
in the perceptibility (a larger `p` admits every position a smaller one
does), and for a fixed pixel carrier the capacity scales linearly with
the bits per channel: `capacity = image.size * n / 8` exactly. -/
theorem c6_capacity_scaling :
    (∀ (Y Cr Cb : Chan) (exif : Option (List Char)) (p q : Nat), p ≤ q →
        JpegImage.storage_capacity ⟨Y, Cr, Cb, exif, p⟩
          ≤ JpegImage.storage_capacity ⟨Y, Cr, Cb, exif, q⟩)
    ∧ (∀ (d : List Px) (exif : Option (List Char)) (n : Nat),
        PngImage.storage_capacity ⟨d, exif, n⟩ = 3 * d.length * n / 8) := by
  constructor
  · intro Y Cr Cb exif p q h
    unfold JpegImage.storage_capacity
    dsimp only
    exact Nat.div_le_div_right
      (Nat.add_le_add (Nat.add_le_add (numAvail_mono h Y) (numAvail_mono h Cr))
        (numAvail_mono h Cb))
  · intro d exif n
    rfl

/-- Witness for C6: capacity monotonicity at `wBlock` channels between
perceptibilities 1 and 8, and the pixel formula at a one-pixel image
with 4 bits per channel. -/
theorem c6_capacity_scaling_witness :
    JpegImage.storage_capacity ⟨[wBlock], [wBlock], [wBlock], none, 1⟩
        ≤ JpegImage.storage_capacity ⟨[wBlock], [wBlock], [wBlock], none, 8⟩
    ∧ PngImage.storage_capacity ⟨[wPx], none, 4⟩ = 3 * ([wPx] : List Px).length * 4 / 8 :=
  ⟨c6_capacity_scaling.1 [wBlock] [wBlock] [wBlock] none 1 8 (by decide),
   c6_capacity_scaling.2 [wPx] none 4⟩

/-- C7 (amended): embedding never mutates the planes or the parameter of
the caller's carrier, and a `CapacityExceeded` failure leaves the caller's
object entirely unchanged — but on the non-failing path the embedder
mutates the caller's exif dictionary in place
(`self.exif["Exif.Photo.UserComment"] = metadata`), so the source object
ends up carrying the stego metadata.  (The frozen "never mutated" claim
is refuted by `c7_exif_mutation_cex`.) -/
theorem c7_source_mutation :
    (∀ (img : JpegImage) (data : List Nat),
        ((img.embed_data data).2.Y = img.Y
          ∧ (img.embed_data data).2.Cr = img.Cr
          ∧ (img.embed_data data).2.Cb = img.Cb
          ∧ (img.embed_data data).2.perceptibility = img.perceptibility)
        ∧ (img.storage_capacity < data.length → (img.embed_data data).2 = img)
        ∧ (data.length ≤ img.storage_capacity →
            (img.embed_data data).2.exif
              = some (mkMetadata (8 * data.length) img.perceptibility)))
    ∧ (∀ (img : PngImage) (data : List Nat),
        ((img.embed_data data).2.data = img.data
          ∧ (img.embed_data data).2.number_of_least_significant_bits
              = img.number_of_least_significant_bits)
        ∧ (img.storage_capacity < data.length → (img.embed_data data).2 = img)
        ∧ (data.length ≤ img.storage_capacity →
            (img.embed_data data).2.exif
              = some (mkMetadata (8 * data.length)
                  img.number_of_least_significant_bits))) := by
  constructor
  · intro img data
    by_cases hc : data.length > img.storage_capacity
    · rw [show (img.embed_data data).2 = img from by
        rw [embed_data_capacity img data hc]]
      exact ⟨⟨rfl, rfl, rfl, rfl⟩, fun _ => rfl, fun h => absurd hc (by omega)⟩
    · simp only [JpegImage.embed_data]
      rw [if_neg hc]
      repeat' split
      all_goals exact ⟨⟨rfl, rfl, rfl, rfl⟩, fun h => absurd h hc, fun _ => rfl⟩
  · intro img data
    by_cases hc : data.length > img.storage_capacity
    · rw [show (img.embed_data data).2 = img from by
        rw [png_embed_data_capacity img data hc]]
      exact ⟨⟨rfl, rfl⟩, fun _ => rfl, fun h => absurd hc (by omega)⟩
    · simp only [PngImage.embed_data]
      rw [if_neg hc]
      exact ⟨⟨rfl, rfl⟩, fun h => absurd h hc, fun _ => rfl⟩

/-- Witness for C7: on success (`wJpeg`, payload [65]) the caller's exif
is overwritten with the stego metadata; on the capacity failure
(`tinyPng`, payload [9]) the caller's object is untouched. -/
theorem c7_source_mutation_witness :
    (wJpeg.embed_data [65]).2.exif
        = some (mkMetadata (8 * ([65] : List Nat).length) wJpeg.perceptibility)
    ∧ (tinyPng.embed_data [9]).2 = tinyPng :=
  ⟨(c7_source_mutation.1 wJpeg [65]).2.2 (by decide),
   (c7_source_mutation.2 tinyPng [9]).2.1 (by decide)⟩

/-- Counterexample to C7 as frozen: `wPng` starts with no exif record;
after a successful `embed_data` the caller's own object carries the
stego metadata record — the original carrier was mutated. -/
theorem c7_exif_mutation_cex :
    wPng.exif = none
    ∧ (wPng.embed_data [7]).2.exif = some (mkMetadata 8 1)
    ∧ ¬((wPng.embed_data [7]).2 = wPng) := by
  have hx : (wPng.embed_data [7]).2.exif = some (mkMetadata 8 1) := by
    simp only [PngImage.embed_data]
    rw [if_neg (by decide : ¬(([7] : List Nat).length > wPng.storage_capacity))]
    rfl
  refine ⟨rfl, hx, fun h => ?_⟩
  have h2 : (wPng.embed_data [7]).2.exif = wPng.exif := by rw [h]
  rw [hx, show wPng.exif = none from rfl] at h2
  exact Option.noConfusion h2

/-- C8 (amended): the detector has no inconclusive outcome.  It always
builds the three per-channel `[observed, expected]` tables and hands
every one of them to `chi2_contingency`; a plane with zero eligible
samples contributes the degenerate table `([0, 0], [0, 0])` — a
chi-square computation on an empty sample set (on which scipy raises)
rather than an explicit inconclusive result.  (The frozen claim is
refuted by `c8_zero_sample_cex`.) -/
theorem c8_no_inconclusive_path :
    ∀ (Y Cr Cb : Chan),
      (dctChi2Tables Y Cr Cb).length = 3
      ∧ (detectorSamples (chanAllVals Y) = [] →
          (dctChi2Tables Y Cr Cb).head? = some ([0, 0], [0, 0])) := by
  intro Y Cr Cb
  refine ⟨rfl, fun h => ?_⟩
  simp only [dctChi2Tables, List.head?_cons, Option.some.injEq]
  rw [h]
  rfl

/-- Witness for C8: the all-zero channel `[zBlock]` has no eligible
samples, and the first submitted table is the degenerate one. -/
theorem c8_no_inconclusive_path_witness :
    (dctChi2Tables [zBlock] [wBlock] [wBlock]).length = 3
    ∧ (dctChi2Tables [zBlock] [wBlock] [wBlock]).head? = some ([0, 0], [0, 0]) :=
  ⟨(c8_no_inconclusive_path [zBlock] [wBlock] [wBlock]).1,
   (c8_no_inconclusive_path [zBlock] [wBlock] [wBlock]).2 (by rfl)⟩

/-- Counterexample to C8 as frozen: an image whose three coefficient
channels are all-zero blocks has zero eligible samples in every plane,
yet the detector still submits a chi-square table for each plane — the
degenerate `([0, 0], [0, 0])` — instead of yielding any inconclusive
result. -/
theorem c8_zero_sample_cex :
    detectorSamples (chanAllVals [zBlock]) = []
    ∧ dctChi2Tables [zBlock] [zBlock] [zBlock]
        = [([0, 0], [0, 0]), ([0, 0], [0, 0]), ([0, 0], [0, 0])] :=
  ⟨rfl, rfl⟩

/-- C9: both low-bit writes of the DCT embedder keep a value outside
{0, 1} outside {0, 1}; consequently a successful embed changes neither
the eligibility pattern of any channel nor the available-bit counts,
and the stego carrier's capacity under the same perceptibility equals
the source carrier's — which is what lets extraction replay the
embedder's scan. -/
theorem c9_eligibility_invariant :
    (∀ (v : Int) (b : Bool), elig v = true → elig (writeBit v b) = true)
    ∧ ∀ (img : JpegImage) (data : List Nat) (S : StegJpegImage),
        (img.embed_data data).1 = .ok S →
        chanEligMask img.perceptibility S.Y = chanEligMask img.perceptibility img.Y
        ∧ chanEligMask img.perceptibility S.Cr
            = chanEligMask img.perceptibility img.Cr
        ∧ chanEligMask img.perceptibility S.Cb
            = chanEligMask img.perceptibility img.Cb
        ∧ dctAvailBits img.perceptibility S
            = numAvail img.perceptibility img.Y + numAvail img.perceptibility img.Cr
              + numAvail img.perceptibility img.Cb
        ∧ dctAvailBits img.perceptibility S / 8 = img.storage_capacity := by
  refine ⟨fun v b h => elig_writeBit v b h, fun img data S h => ?_⟩
  obtain ⟨h1, h2, h3⟩ := embed_data_mask img data S h
  have e1 : numAvail img.perceptibility S.Y = numAvail img.perceptibility img.Y := by
    rw [numAvail_eq_count, numAvail_eq_count, h1]
  have e2 : numAvail img.perceptibility S.Cr = numAvail img.perceptibility img.Cr := by
    rw [numAvail_eq_count, numAvail_eq_count, h2]
  have e3 : numAvail img.perceptibility S.Cb = numAvail img.perceptibility img.Cb := by
    rw [numAvail_eq_count, numAvail_eq_count, h3]
  refine ⟨h1, h2, h3, ?_, ?_⟩
  · simp only [dctAvailBits]
    omega
  · simp only [dctAvailBits]
    unfold JpegImage.storage_capacity
    omega

/-- Witness for C9: the write invariant at the eligible value 5, and the
capacity invariance across the concrete embed of [65] into `wJpeg`. -/
theorem c9_eligibility_invariant_witness :
    elig (writeBit 5 true) = true
    ∧ dctAvailBits wJpeg.perceptibility
          ((wJpeg.embed_data [65]).1.toOption.getD ⟨[], [], [], none⟩) / 8
        = wJpeg.storage_capacity :=
  ⟨c9_eligibility_invariant.1 5 true (by decide),
   (c9_eligibility_invariant.2 wJpeg [65] _ (by rfl)).2.2.2.2⟩

/-- C10: carrier construction never fails on a bad embedding parameter:
an out-of-range value is silently replaced by the default (3 for DCT
perceptibility, 1 for pixel bits per channel), an in-range value is kept
verbatim, and the stored parameter is always within its valid domain. -/
theorem c10_parameter_clamping :
    (∀ (Y Cr Cb : Chan) (exif : Option (List Char)) (p : Int),
        (¬(1 ≤ p ∧ p ≤ 8) →
            (JpegImage.fromParams Y Cr Cb exif p).perceptibility = 3)
        ∧ ((1 ≤ p ∧ p ≤ 8) →
            ((JpegImage.fromParams Y Cr Cb exif p).perceptibility : Int) = p)
        ∧ 1 ≤ (JpegImage.fromParams Y Cr Cb exif p).perceptibility
        ∧ (JpegImage.fromParams Y Cr Cb exif p).perceptibility ≤ 8)
    ∧ (∀ (d : List Px) (exif : Option (List Char)) (n : Int),
        (¬(1 ≤ n ∧ n ≤ 4) →
            (PngImage.fromParams d exif n).number_of_least_significant_bits = 1)
        ∧ ((1 ≤ n ∧ n ≤ 4) →
            ((PngImage.fromParams d exif n).number_of_least_significant_bits : Int)
              = n)
        ∧ 1 ≤ (PngImage.fromParams d exif n).number_of_least_significant_bits
        ∧ (PngImage.fromParams d exif n).number_of_least_significant_bits ≤ 4) := by
  constructor
  · intro Y Cr Cb exif p
    have hval : (JpegImage.fromParams Y Cr Cb exif p).perceptibility
        = if 1 ≤ p ∧ p ≤ 8 then p.toNat else 3 := rfl
    by_cases h : 1 ≤ p ∧ p ≤ 8
    · rw [if_pos h] at hval
      exact ⟨fun hc => absurd h hc, fun _ => by rw [hval]; omega,
        by rw [hval]; omega, by rw [hval]; omega⟩
    · rw [if_neg h] at hval
      exact ⟨fun _ => hval, fun hc => absurd hc h,
        by rw [hval]; omega, by rw [hval]; omega⟩
  · intro d exif n
    have hval : (PngImage.fromParams d exif n).number_of_least_significant_bits
        = if 1 ≤ n ∧ n ≤ 4 then n.toNat else 1 := rfl
    by_cases h : 1 ≤ n ∧ n ≤ 4
    · rw [if_pos h] at hval
      exact ⟨fun hc => absurd h hc, fun _ => by rw [hval]; omega,
        by rw [hval]; omega, by rw [hval]; omega⟩
    · rw [if_neg h] at hval
      exact ⟨fun _ => hval, fun hc => absurd hc h,
        by rw [hval], by rw [hval]; omega⟩

/-- Witness for C10: out-of-range parameters 0 (DCT) and 9 (pixel) fall
back to the defaults; in-range parameters 5 and 2 are kept. -/
theorem c10_parameter_clamping_witness :
    (JpegImage.fromParams [] [] [] none 0).perceptibility = 3
    ∧ ((JpegImage.fromParams [] [] [] none 5).perceptibility : Int) = 5
    ∧ (PngImage.fromParams [] none 9).number_of_least_significant_bits = 1
    ∧ ((PngImage.fromParams [] none 2).number_of_least_significant_bits : Int) = 2 :=
  ⟨(c10_parameter_clamping.1 [] [] [] none 0).1 (by decide),
   (c10_parameter_clamping.1 [] [] [] none 5).2.1 (by decide),
   (c10_parameter_clamping.2 [] none 9).1 (by decide),
   (c10_parameter_clamping.2 [] none 2).2.1 (by decide)⟩
